import Mathlib

/-!
Shallow embedding of the genetic STSP solver `app/routing/stsp.py`
(`GaSolver`) and proofs about it.

Modelling conventions:
* Python floats are modelled as rationals (`ℚ`).
* The process-wide random source (`random`, `numpy.random`) is modelled as an
  explicit stream `rand : Nat → Nat`; every primitive draw consumes one stream
  position, which is threaded through all functions.  A draw that must produce
  a value in `[0, k)` reduces the stream value modulo `k`.
* Python exceptions (IndexError on out-of-range access, ValueError from
  `random.randint(a, b)` with `b < a` or from `argmax` of an empty array,
  non-termination of the unbounded `while True:` loops) are modelled by
  `Option`: `none` means the Python code does not return normally.
* `numpy` structured arrays of records are modelled as `List Individual`;
  the parallel `fittest` best log is a `List Individual` of fixed length
  `max_generations`, updated in place with `List.set`.
-/

namespace STSP

/-- One individual of the population: `(path, cost, fitness)` record of the
structured numpy array. -/
structure Individual where
  path : List Nat
  cost : ℚ
  fitness : ℚ
  deriving Repr, DecidableEq, Inhabited

/-- The constructor arguments of `GaSolver.__init__`.  `endIdx` renders the
Python parameter `end` (a reserved word in Lean).  `n` is the number of rows
of the distance matrix (`numpy.where` enumerates columns `0..n-1`). -/
structure Config where
  start : Nat
  endIdx : Nat
  n : Nat
  distances : Nat → Nat → ℚ
  maxCost : ℚ
  profits : Option (Nat → ℚ)
  populationSize : Nat
  tournamentSize : Nat
  minGenerations : Nat
  maxGenerations : Nat
  terminationThreshold : ℚ

/-- Sum `Σ D[path[k], path[k+1]]`: the traversal cost of a path, i.e. the numpy
expression `distances[path[:-1], path[1:]].sum()`. -/
def pathSum (D : Nat → Nat → ℚ) : List Nat → ℚ
  | a :: b :: rest => D a b + pathSum D (b :: rest)
  | _ => 0

/-- Clamp one bound of a Python slice `l[a:b]` to `[0, n]`, resolving negative
indices relative to the end as Python does. -/
def sliceIdx (n : Nat) (i : Int) : Nat :=
  (if i < 0 then max ((n : Int) + i) 0 else min i (n : Int)).toNat

/-- Python slice `l[a:b]` (with step 1), including negative-index semantics. -/
def pySlice (l : List α) (a b : Int) : List α :=
  (l.take (sliceIdx l.length b)).drop (sliceIdx l.length a)

/-- Python `random.randint(a, b)`: uniform on the inclusive range `[a, b]`; raises
`ValueError` (here: `none`) when `b < a`. -/
def pyRandint (rand : Nat → Nat) (pos a b : Nat) : Option Nat :=
  if b < a then none else some (a + rand pos % (b + 1 - a))

/-- Python `random.choice(l)`: uniform element of `l`; IndexError (`none`) on an
empty sequence. -/
def pyChoice (rand : Nat → Nat) (pos : Nat) (l : List Nat) : Option Nat :=
  l.get? (rand pos % l.length)

/-- Embeds `numpy.argmax`: index of the first maximal element (`0` for `[]`;
callers must guard emptiness, numpy raises there). -/
def argmaxIdx : List ℚ → Nat
  | [] => 0
  | [_] => 0
  | x :: y :: rest =>
    let j := argmaxIdx (y :: rest)
    if (y :: rest).getD j 0 ≤ x then 0 else j + 1

/-- Maximum of a list of rationals (`ndarray.max()`); `none` on empty. -/
def listMaxQ : List ℚ → Option ℚ
  | [] => none
  | [x] => some x
  | x :: y :: rest => (listMaxQ (y :: rest)).map (fun m => max x m)

/-- Minimum of a list of rationals (`ndarray.min()`); `none` on empty. -/
def listMinQ : List ℚ → Option ℚ
  | [] => none
  | [x] => some x
  | x :: y :: rest => (listMinQ (y :: rest)).map (fun m => min x m)

/-- Python `list.index(x)`: index of the first occurrence of `x` (length if absent;
callers only use it on members). -/
def listIndex (x : Nat) : List Nat → Nat
  | [] => 0
  | y :: ys => if y = x then 0 else listIndex x ys + 1

/-- Insert `x` before position `i` (`list.insert(i, x)` for `i ≤ len`). -/
def listInsertAt (i : Nat) (x : Nat) (l : List Nat) : List Nat :=
  l.take i ++ x :: l.drop i

/-- Python `del l[i]` for `i < len`. -/
def listDeleteAt : Nat → List Nat → List Nat
  | _, [] => []
  | 0, _ :: xs => xs
  | i + 1, x :: xs => x :: listDeleteAt i xs

/-- Embeds `GaSolver._calc_fitness` on one individual: `len(path) * max_cost - cost`,
with `(profit + len(path)) * max_cost - cost` when profits are given, where
`profit = numpy.take(profits, path).sum()`. -/
def fitnessOf (cfg : Config) (ind : Individual) : ℚ :=
  match cfg.profits with
  | some w => (((ind.path.map w).sum + (ind.path.length : ℚ)) * cfg.maxCost) - ind.cost
  | none => ((ind.path.length : ℚ) * cfg.maxCost) - ind.cost

/-- Embeds `population['fitness'] = self._calc_fitness(population)`. -/
def withFitness (cfg : Config) (pop : List Individual) : List Individual :=
  pop.map (fun ind => { ind with fitness := fitnessOf cfg ind })

/-- The comprehension `[x for x in l if not (x in seen or seen_add(x))]`:
keep the first occurrence of every element not already in `seen`. -/
def uniqueAux (seen : List Nat) : List Nat → List Nat
  | [] => []
  | x :: xs => if x ∈ seen then uniqueAux seen xs else x :: uniqueAux (x :: seen) xs

/-- Embeds `GaSolver._unique_path`: `[start] + dedup(path[1:-1]) + [end]` with
`seen` initialised to `{start, end}`. -/
def uniquePath (s e : Nat) (path : List Nat) : List Nat :=
  s :: uniqueAux [s, e] (pySlice path 1 (-1)) ++ [e]

/-- The specification's reading of `_unique_path`'s interior: scan the
interior left to right and keep an element the first time it appears,
treating `s` and `e` as already seen. -/
def firstOccur (s e : Nat) (l : List Nat) : List Nat :=
  l.foldl (fun acc x => if x = s ∨ x = e ∨ x ∈ acc then acc else acc ++ [x]) []

lemma pySlice_interior (l : List α) : pySlice l 1 (-1) = (l.dropLast).drop 1 := by
  unfold pySlice sliceIdx
  cases l with
  | nil => simp
  | cons x xs =>
    have h1 : ((if (-1 : Int) < 0 then max ((((x :: xs).length : Nat) : Int) + (-1)) 0
        else min (-1) (((x :: xs).length : Nat) : Int))).toNat = xs.length := by
      simp only [List.length_cons]
      norm_num
    have h2 : ((if (1 : Int) < 0 then max ((((x :: xs).length : Nat) : Int) + 1) 0
        else min 1 (((x :: xs).length : Nat) : Int))).toNat = 1 := by
      simp only [List.length_cons]
      norm_num
    rw [h1, h2, List.dropLast_eq_take]
    simp

lemma uniqueAux_foldl (l : List Nat) (s e : Nat) :
    ∀ (acc seen : List Nat), (∀ x, x ∈ seen ↔ x = s ∨ x = e ∨ x ∈ acc) →
    acc ++ uniqueAux seen l =
      l.foldl (fun acc x => if x = s ∨ x = e ∨ x ∈ acc then acc else acc ++ [x]) acc := by
  induction l with
  | nil => intro acc seen _; simp [uniqueAux]
  | cons x xs ih =>
    intro acc seen hseen
    simp only [uniqueAux, List.foldl_cons]
    by_cases hx : x ∈ seen
    · rw [if_pos hx, if_pos ((hseen x).mp hx)]
      exact ih acc seen hseen
    · rw [if_neg hx, if_neg (fun h => hx ((hseen x).mpr h))]
      have hnew : ∀ y, y ∈ x :: seen ↔ y = s ∨ y = e ∨ y ∈ acc ++ [x] := by
        intro y
        simp only [List.mem_cons, hseen y, List.mem_append, List.mem_singleton]
        tauto
      have := ih (acc ++ [x]) (x :: seen) hnew
      rw [← this]
      simp

lemma uniqueAux_eq_firstOccur (s e : Nat) (l : List Nat) :
    uniqueAux [s, e] l = firstOccur s e l := by
  have h := uniqueAux_foldl l s e [] [s, e] (by intro x; simp)
  simpa [firstOccur] using h


/-- C8: for every list, `_unique_path` returns `[start]` followed by the
interior elements (`path[1:-1]`) in first-occurrence order with duplicates
and any occurrences of `start` or `end` removed, followed by `[end]`; in
particular `unique_path([0,1,0,3,1,4,9,5,3,0])` with `start = end = 0` is
`[0,1,3,4,9,5,0]`. -/
theorem uniquePath_first_occurrence (s e : Nat) (p : List Nat) :
    uniquePath s e p = s :: (firstOccur s e ((p.dropLast).drop 1) ++ [e]) ∧
    uniquePath 0 0 [0,1,0,3,1,4,9,5,3,0] = [0,1,3,4,9,5,0] := by
  refine ⟨?_, by decide⟩
  unfold uniquePath
  rw [pySlice_interior, uniqueAux_eq_firstOccur]
  simp

/-- C7: with profits absent, a strictly longer path has strictly greater
fitness (for costs in `[0, max_cost)`), and at equal path length the fitness
order is the reverse of the cost order; with profits present, at equal path
length and equal cost, a strictly greater summed profit gives strictly
greater fitness. -/
lemma fitnessOf_none (cfg : Config) (h : cfg.profits = none) (ind : Individual) :
    fitnessOf cfg ind = ((ind.path.length : ℚ) * cfg.maxCost) - ind.cost := by
  simp [fitnessOf, h]

lemma fitnessOf_some (cfg : Config) (w : Nat → ℚ) (h : cfg.profits = some w)
    (ind : Individual) :
    fitnessOf cfg ind =
      (((ind.path.map w).sum + (ind.path.length : ℚ)) * cfg.maxCost) - ind.cost := by
  simp [fitnessOf, h]

/-- C7: with profits absent, a strictly longer path has strictly greater
fitness (for costs in `[0, max_cost)`), and at equal path length the fitness
order is the reverse of the cost order; with profits present, at equal path
length and equal cost, a strictly greater summed profit gives strictly
greater fitness. -/
theorem fitness_lex_order (cfg : Config) (hM : 0 < cfg.maxCost) (a b : Individual)
    (ha0 : 0 ≤ a.cost) (ha : a.cost < cfg.maxCost)
    (hb0 : 0 ≤ b.cost) (hb : b.cost < cfg.maxCost) :
    (cfg.profits = none →
      ((b.path.length < a.path.length → fitnessOf cfg b < fitnessOf cfg a) ∧
       (a.path.length = b.path.length →
         (fitnessOf cfg b < fitnessOf cfg a ↔ a.cost < b.cost)))) ∧
    (∀ w, cfg.profits = some w →
      a.path.length = b.path.length → a.cost = b.cost →
      (b.path.map w).sum < (a.path.map w).sum →
      fitnessOf cfg b < fitnessOf cfg a) := by
  constructor
  · intro hW
    rw [fitnessOf_none cfg hW a, fitnessOf_none cfg hW b]
    constructor
    · intro hlen
      have hcast : (b.path.length : ℚ) + 1 ≤ (a.path.length : ℚ) := by
        exact_mod_cast hlen
      nlinarith
    · intro hlen
      rw [hlen]
      constructor
      · intro h; linarith
      · intro h; linarith
  · intro w hW hlen hcost hprof
    rw [fitnessOf_some cfg w hW a, fitnessOf_some cfg w hW b, hlen, hcost]
    nlinarith

/-- Concrete configuration used to witness the fitness-ordering theorem. -/
def cfgFitW : Config :=
  { start := 0, endIdx := 1, n := 2, distances := fun _ _ => 0, maxCost := 10,
    profits := none, populationSize := 2, tournamentSize := 5,
    minGenerations := 5, maxGenerations := 200, terminationThreshold := 1/100 }

/-- Witness for the fitness-ordering theorem at a concrete configuration. -/
theorem fitness_lex_order_witness :
    fitnessOf cfgFitW ⟨[0, 1], 3, 0⟩ < fitnessOf cfgFitW ⟨[0, 2, 1], 4, 0⟩ :=
  ((fitness_lex_order cfgFitW (by norm_num [cfgFitW]) ⟨[0, 2, 1], 4, 0⟩ ⟨[0, 1], 3, 0⟩
      (by norm_num) (by norm_num [cfgFitW]) (by norm_num) (by norm_num [cfgFitW])).1 rfl).1
    (by norm_num)

/-- Swap elements `i` and `j` of a list (identity when an index is out of
range; the shuffle below only uses in-range indices). -/
def swapIdx (l : List Nat) (i j : Nat) : List Nat :=
  match l.get? i, l.get? j with
  | some x, some y => (l.set i y).set j x
  | _, _ => l

/-- The loop of Python 2 `random.shuffle`: for `i = k, k-1, ..., 1` pick `j`
uniformly in `[0, i]` and swap positions `i` and `j`; one stream draw per
step. -/
def fyGo (rand : Nat → Nat) : Nat → Nat → List Nat → List Nat
  | 0, _, a => a
  | k + 1, pos, a => fyGo rand k (pos + 1) (swapIdx a (k + 1) (rand pos % (k + 2)))

/-- Python `random.shuffle(a)`; consumes `a.length - 1` draws. -/
def fisherYates (rand : Nat → Nat) (pos : Nat) (a : List Nat) : List Nat :=
  fyGo rand (a.length - 1) pos a

/-- Read `(a[i], a[i+1])` for each `i` of the couple loop; `none` models the
IndexError raised when an access is out of range. -/
def buildCouples (a : List Nat) : List Nat → Option (List (Nat × Nat))
  | [] => some []
  | i :: rest =>
    match a.get? i, a.get? (i + 1) with
    | some x, some y => (buildCouples a rest).map (fun t => (x, y) :: t)
    | _, _ => none

/-- Embeds `GaSolver._iter_couples`: shuffle `range(n)` in place and yield the index
pairs `(a[i], a[i+1])` for `i in xrange(0, n, 2)`.  Returns the couples and
the next stream position. -/
def iterCouples (rand : Nat → Nat) (pos n : Nat) :
    Option (List (Nat × Nat)) × Nat :=
  let a := fisherYates rand pos (List.range n)
  (buildCouples a ((List.range ((n + 1) / 2)).map (fun k => 2 * k)), pos + (n - 1))

lemma swapIdx_length (l : List Nat) (i j : Nat) :
    (swapIdx l i j).length = l.length := by
  unfold swapIdx
  cases h1 : l.get? i <;> cases h2 : l.get? j <;> simp

lemma fyGo_length (rand : Nat → Nat) :
    ∀ (k pos : Nat) (a : List Nat), (fyGo rand k pos a).length = a.length := by
  intro k
  induction k with
  | zero => intro pos a; rfl
  | succ m ih =>
    intro pos a
    rw [fyGo, ih, swapIdx_length]

lemma fisherYates_length (rand : Nat → Nat) (pos : Nat) (a : List Nat) :
    (fisherYates rand pos a).length = a.length := fyGo_length rand _ pos a

lemma buildCouples_none (a : List Nat) (l : List Nat)
    (h : ∃ i ∈ l, a.get? (i + 1) = none) : buildCouples a l = none := by
  induction l with
  | nil => simp at h
  | cons i rest ih =>
    obtain ⟨i0, hmem, hnone⟩ := h
    rcases List.mem_cons.mp hmem with rfl | hmem
    · unfold buildCouples
      rw [hnone]
      cases a.get? i0 <;> rfl
    · unfold buildCouples
      rw [ih ⟨i0, hmem, hnone⟩]
      cases a.get? i <;> cases a.get? (i + 1) <;> rfl

/-- C4 (amended): for every odd population size `P ≥ 3`, forming the couples
accesses index `P` of the `P`-element shuffled index list — out of bounds
(IndexError in Python, `none` here) — so Crossover does not complete. -/
theorem iterCouples_odd_out_of_bounds (n : Nat) (hodd : n % 2 = 1) (h3 : 3 ≤ n)
    (rand : Nat → Nat) (pos : Nat) : (iterCouples rand pos n).1 = none := by
  unfold iterCouples
  apply buildCouples_none
  refine ⟨n - 1, ?_, ?_⟩
  · simp only [List.mem_map, List.mem_range]
    exact ⟨(n - 1) / 2, by omega, by omega⟩
  · apply List.get?_eq_none.mpr
    rw [fisherYates_length, List.length_range]
    omega

/-- Witness: at `P = 3` the couple iterator fails. -/
theorem iterCouples_odd_out_of_bounds_witness :
    (iterCouples (fun _ => 0) 0 3).1 = none :=
  iterCouples_odd_out_of_bounds 3 (by decide) (by decide) (fun _ => 0) 0

/-- The 10 sampled indices for offspring slot `i`
(`numpy.random.randint(0, P, 10)`, the stream values at positions
`pos + 10*i .. pos + 10*i + 9` reduced into `[0, P)`). -/
def tournamentSamples (rand : Nat → Nat) (pos i P : Nat) : List Nat :=
  (List.range 10).map (fun t => rand (pos + 10 * i + t) % P)

/-- One slot of `_do_selection`: among the sampled individuals pick the one
of maximal fitness (`population[i_samples[argmax(fitness[i_samples])]]`). -/
def selectSlot (popF : List Individual) (samples : List Nat) : Option Individual :=
  match samples.mapM (fun sIdx => (popF.get? sIdx).map (fun ind => ind.fitness)) with
  | none => none
  | some sfits => popF.get? (samples.getD (argmaxIdx sfits) 0)

/-- The offspring-building loop of `_do_selection`: fill `rem` slots starting
at slot `i`. -/
def selectLoop (popF : List Individual) (rand : Nat → Nat) (pos P i : Nat) :
    Nat → Option (List Individual)
  | 0 => some []
  | rem + 1 =>
    match selectSlot popF (tournamentSamples rand pos i P),
        selectLoop popF rand pos P (i + 1) rem with
    | some ind, some tail => some (ind :: tail)
    | _, _ => none

/-- Embeds `GaSolver._do_selection`: recompute the population's fitness, record the
fittest individual at `fittest[cg]`, and replace the population by `P`
tournament winners.  Returns `(offspring, best log, next position)`; `none`
models `argmax` of an empty population and an out-of-range best-log write. -/
def doSelection (cfg : Config) (rand : Nat → Nat) (pos : Nat)
    (pop log : List Individual) (cg : Nat) :
    Option (List Individual × List Individual × Nat) :=
  let popF := withFitness cfg pop
  match popF.get? (argmaxIdx (popF.map (fun ind => ind.fitness))) with
  | none => none
  | some best =>
    if cg < log.length then
      match selectLoop popF rand pos cfg.populationSize 0 cfg.populationSize with
      | none => none
      | some off => some (off, log.set cg best, pos + 10 * cfg.populationSize)
    else none

lemma argmaxIdx_lt (l : List ℚ) (h : l ≠ []) : argmaxIdx l < l.length := by
  induction l with
  | nil => simp at h
  | cons x xs ih =>
    cases xs with
    | nil => simp [argmaxIdx]
    | cons y rest =>
      rw [argmaxIdx]
      split
      · simp
      · have := ih (by simp)
        simp only [List.length_cons] at this ⊢
        omega

lemma argmaxIdx_spec (l : List ℚ) :
    ∀ k, k < l.length → l.getD k 0 ≤ l.getD (argmaxIdx l) 0 := by
  induction l with
  | nil => intro k hk; simp at hk
  | cons x xs ih =>
    cases xs with
    | nil =>
      intro k hk
      simp only [List.length_cons, List.length_nil] at hk
      have : k = 0 := by omega
      subst this
      simp [argmaxIdx]
    | cons y rest =>
      intro k hk
      rw [argmaxIdx]
      split
      · rename_i hc
        match k, hk with
        | 0, _ => simp
        | k + 1, hk =>
          simp only [List.getD_cons_succ, List.getD_cons_zero]
          refine le_trans (ih k (by simpa using hk)) ?_
          simpa [List.getD] using hc
      · rename_i hc
        match k, hk with
        | 0, _ =>
          simp only [List.getD_cons_zero, List.getD_cons_succ]
          have := lt_of_not_le hc
          refine le_of_lt ?_
          simpa [List.getD] using this
        | k + 1, hk =>
          simp only [List.getD_cons_succ]
          exact ih k (by simpa using hk)

lemma get?_eq_getD_ind (l : List Individual) (i : Nat) (h : i < l.length) :
    l.get? i = some (l.getD i default) := by
  rw [List.getD_eq_get?]
  cases hx : l.get? i with
  | none => exact absurd (List.get?_eq_none.mp hx) (by omega)
  | some x => rfl

lemma mapM_fitness (popF : List Individual) (samples : List Nat)
    (h : ∀ s ∈ samples, s < popF.length) :
    samples.mapM (fun sIdx => (popF.get? sIdx).map (fun ind => ind.fitness)) =
      some (samples.map (fun sIdx => (popF.getD sIdx default).fitness)) := by
  induction samples with
  | nil => rfl
  | cons x xs ih =>
    rw [List.mapM_cons, get?_eq_getD_ind popF x (h x (by simp)),
      ih (fun s hs => h s (by simp [hs]))]
    rfl

lemma getD_map_fitness (l : List Nat) (f : Nat → ℚ) (i : Nat) (h : i < l.length) :
    (l.map f).getD i 0 = f (l.getD i 0) := by
  rw [List.getD_eq_get?, List.getD_eq_get?, List.get?_map]
  cases hx : l.get? i with
  | none => exact absurd (List.get?_eq_none.mp hx) (by omega)
  | some x => rfl

lemma selectLoop_some (popF : List Individual) (rand : Nat → Nat) (pos P : Nat) :
    ∀ (rem i : Nat) (off : List Individual),
      selectLoop popF rand pos P i rem = some off →
      off.length = rem ∧
      ∀ k, k < rem → off.get? k = selectSlot popF (tournamentSamples rand pos (i + k) P) := by
  intro rem
  induction rem with
  | zero =>
    intro i off h
    rw [selectLoop] at h
    cases h
    exact ⟨rfl, by omega⟩
  | succ m ih =>
    intro i off h
    rw [selectLoop] at h
    split at h
    · rename_i ind tail hslot htail
      cases h
      obtain ⟨hlen, hslots⟩ := ih (i + 1) tail htail
      constructor
      · simp [hlen]
      · intro k hk
        cases k with
        | zero => simpa using hslot.symm
        | succ k0 =>
          have := hslots k0 (by omega)
          simpa [Nat.add_assoc, Nat.add_comm 1 k0] using this
    · cases h

/-- C6: each offspring slot of Selection is filled from exactly 10 stream
draws reduced into `[0, P)` (a fixed tournament of size 10), taking the
sampled individual of greatest fitness (first such index on ties), and
the configured `tournament_size` has no effect on the result. -/
theorem selection_fixed_tournament_of_10 (cfg : Config) (rand : Nat → Nat)
    (pos : Nat) (pop log : List Individual) (cg : Nat)
    (off log2 : List Individual) (pos2 : Nat)
    (hlen : pop.length = cfg.populationSize)
    (h : doSelection cfg rand pos pop log cg = some (off, log2, pos2)) :
    (∀ t, doSelection { cfg with tournamentSize := t } rand pos pop log cg
        = some (off, log2, pos2)) ∧
    pos2 = pos + 10 * cfg.populationSize ∧
    off.length = cfg.populationSize ∧
    ∀ i, i < cfg.populationSize →
      (tournamentSamples rand pos i cfg.populationSize).length = 10 ∧
      (∀ sIdx ∈ tournamentSamples rand pos i cfg.populationSize,
          sIdx < cfg.populationSize) ∧
      ∃ j, j < 10 ∧
        off.get? i = (withFitness cfg pop).get?
            ((tournamentSamples rand pos i cfg.populationSize).getD j 0) ∧
        ∀ k, k < 10 →
          ((withFitness cfg pop).getD
              ((tournamentSamples rand pos i cfg.populationSize).getD k 0)
              default).fitness ≤
            ((withFitness cfg pop).getD
              ((tournamentSamples rand pos i cfg.populationSize).getD j 0)
              default).fitness := by
  have hT : ∀ t, doSelection { cfg with tournamentSize := t } rand pos pop log cg
      = doSelection cfg rand pos pop log cg := by
    intro t
    rfl
  rw [doSelection] at h
  split at h
  · cases h
  · rename_i best hbest
    split at h
    · rename_i hcg
      split at h
      · cases h
      · rename_i off0 hloop
        have hinj : off0 = off ∧ log.set cg best = log2 ∧
            pos + 10 * cfg.populationSize = pos2 := by
          cases h
          exact ⟨rfl, rfl, rfl⟩
        obtain ⟨rfl, hlog2, hpos2⟩ := hinj
        have hPF : (withFitness cfg pop).length = cfg.populationSize := by
          simp [withFitness, hlen]
        have hP0 : 0 < cfg.populationSize := by
          have hne : (withFitness cfg pop).get?
              (argmaxIdx ((withFitness cfg pop).map (fun ind => ind.fitness))) =
              some best := hbest
          obtain ⟨hlt, -⟩ := List.get?_eq_some.mp hne
          omega
        obtain ⟨hofflen, hslots⟩ := selectLoop_some _ rand pos _ _ _ _ hloop
        refine ⟨?_, hpos2.symm, hofflen, ?_⟩
        · intro t
          rw [hT t, doSelection, hbest]
          simp only [if_pos hcg, hloop]
          rw [hlog2, hpos2]
        · intro i hi
          have hsamp : ∀ sIdx ∈ tournamentSamples rand pos i cfg.populationSize,
              sIdx < cfg.populationSize := by
            intro sIdx hs
            simp only [tournamentSamples, List.mem_map] at hs
            obtain ⟨t, _, rfl⟩ := hs
            exact Nat.mod_lt _ hP0
          have hslen : (tournamentSamples rand pos i cfg.populationSize).length = 10 := by
            simp [tournamentSamples]
          refine ⟨hslen, hsamp, ?_⟩
          have hoff := hslots i (by omega)
          rw [Nat.zero_add] at hoff
          rw [selectSlot] at hoff
          rw [mapM_fitness _ _ (fun sIdx hs => by rw [hPF]; exact hsamp sIdx hs)] at hoff
          set samples := tournamentSamples rand pos i cfg.populationSize with hsdef
          set sfits := samples.map (fun sIdx =>
            ((withFitness cfg pop).getD sIdx default).fitness) with hfdef
          have hflen : sfits.length = 10 := by simp [hfdef, hslen]
          refine ⟨argmaxIdx sfits, ?_, by simpa using hoff, ?_⟩
          · have := argmaxIdx_lt sfits (by intro hemp; rw [hemp] at hflen; simp at hflen)
            omega
          · intro k hk
            have hspec := argmaxIdx_spec sfits k (by omega)
            have hj : argmaxIdx sfits < samples.length := by
              have := argmaxIdx_lt sfits (by intro hemp; rw [hemp] at hflen; simp at hflen)
              omega
            rw [hfdef] at hspec
            rw [getD_map_fitness _ _ k (by omega),
              getD_map_fitness _ _ _ hj] at hspec
            exact hspec
    · cases h

/-- Concrete configuration used to witness the selection theorem. -/
def cfgSelW : Config :=
  { start := 0, endIdx := 1, n := 2, distances := fun _ _ => 1, maxCost := 10,
    profits := none, populationSize := 2, tournamentSize := 5,
    minGenerations := 5, maxGenerations := 3, terminationThreshold := 1/100 }

/-- Witness for the selection theorem: a concrete run, with the configured
tournament size changed to 99, gives the same result. -/
theorem selection_fixed_tournament_of_10_witness :
    doSelection { cfgSelW with tournamentSize := 99 } (fun _ => 0) 0
        [⟨[0, 1], 1, 0⟩, ⟨[0, 1], 1, 0⟩] [⟨[], 0, 0⟩] 0
      = some ([⟨[0, 1], 1, 19⟩, ⟨[0, 1], 1, 19⟩], [⟨[0, 1], 1, 19⟩], 20) :=
  (selection_fixed_tournament_of_10 cfgSelW (fun _ => 0) 0
      [⟨[0, 1], 1, 0⟩, ⟨[0, 1], 1, 0⟩] [⟨[], 0, 0⟩] 0
      [⟨[0, 1], 1, 19⟩, ⟨[0, 1], 1, 19⟩] [⟨[0, 1], 1, 19⟩] 20
      (by decide) (by with_unfolding_all decide)).1 99

/-- The common genes of a couple,
`set(A.path) & set(B.path) - {start, end}`, represented as the ascending
list of matrix indices (the Python set has no specified order; the sampled
gene is random either way). -/
def commonGenes (cfg : Config) (a b : Individual) : List Nat :=
  (List.range cfg.n).filter (fun x =>
    a.path.contains x && b.path.contains x &&
      !(x = cfg.start : Bool) && !(x = cfg.endIdx : Bool))

/-- The spliced child `A.path[:indexOf(g)+1] + B.path[indexOf(g)+1:]`. -/
def firstChildOf (a b : Individual) (g : Nat) : List Nat :=
  a.path.take (listIndex g a.path + 1) ++ b.path.drop (listIndex g b.path + 1)

/-- Replace parent `i` by a child in place when the child's recomputed cost
is strictly below `max_cost` (the `fitness` field keeps the parent's stale
value, as the Python assignment only writes `cost` and `path`). -/
def acceptChild (cfg : Config) (pop : List Individual) (i : Nat) (fit : ℚ)
    (child : List Nat) : List Individual :=
  if pathSum cfg.distances child < cfg.maxCost then
    pop.set i { path := child, cost := pathSum cfg.distances child, fitness := fit }
  else pop

/-- Embeds the `_do_crossover` body for one couple `(i1, i2)`: splice both paths at a
randomly sampled common gene and replace each parent whose child cost is
strictly below `max_cost` (acceptance of the two children is independent;
the second child's cost is computed from the captured parent rows). -/
def crossCouple (cfg : Config) (rand : Nat → Nat) (pos : Nat)
    (pop : List Individual) (i1 i2 : Nat) : Option (List Individual × Nat) :=
  match pop.get? i1, pop.get? i2 with
  | some a, some b =>
    if (commonGenes cfg a b).isEmpty then some (pop, pos)
    else
      match (commonGenes cfg a b).get?
          (rand pos % (commonGenes cfg a b).length) with
      | none => none
      | some g =>
        some (acceptChild cfg
          (acceptChild cfg pop i1 a.fitness (firstChildOf a b g))
          i2 b.fitness (firstChildOf b a g), pos + 1)
  | _, _ => none

/-- Fold of `crossCouple` over the couples yielded by `_iter_couples`. -/
def crossLoop (cfg : Config) (rand : Nat → Nat) :
    List (Nat × Nat) → List Individual × Nat → Option (List Individual × Nat)
  | [], st => some st
  | (i1, i2) :: rest, (pop, pos) =>
    (crossCouple cfg rand pos pop i1 i2).bind (crossLoop cfg rand rest)

/-- Embeds `GaSolver._do_crossover`. -/
def doCrossover (cfg : Config) (rand : Nat → Nat) (pos : Nat)
    (pop : List Individual) : Option (List Individual × Nat) :=
  let ic := iterCouples rand pos cfg.populationSize
  match ic.1 with
  | none => none
  | some couples => crossLoop cfg rand couples (pop, ic.2)

/-- Strict lexicographic order on sort keys. -/
def lexLt (a b : ℚ × ℚ) : Bool :=
  decide (a.1 < b.1) || (decide (a.1 = b.1) && decide (a.2 < b.2))

/-- Insert index `i` into an already sorted index list, after all indices of
key ≤ its own (stability). -/
def insertIdxSorted (keys : Nat → ℚ × ℚ) (i : Nat) : List Nat → List Nat
  | [] => [i]
  | j :: rest =>
    if lexLt (keys i) (keys j) then i :: j :: rest
    else j :: insertIdxSorted keys i rest

/-- Stable argsort of `0..n-1` by `keys` (models `numpy.argsort` of the
increments — with the ties-broken-by-index order of a stable sort — and
`numpy.lexsort`, which is stable). -/
def argsortLex (keys : Nat → ℚ × ℚ) (n : Nat) : List Nat :=
  (List.range n).foldl (fun acc i => insertIdxSorted keys i acc) []

/-- The insertion loop of `_do_mutation`: walk the sorted candidates; skip
candidates already in the path; insert an acceptable candidate (cost still
`< max_cost`) at position `iIns` and keep going with the grown path; stop at
the first candidate whose insertion would reach `max_cost`. -/
def mutateInsertLoop (cfg : Config) (iIns : Nat) :
    List Nat → List Nat → ℚ → List Nat × ℚ
  | [], path, cost => (path, cost)
  | cand :: rest, path, cost =>
    if cand ∈ path then mutateInsertLoop cfg iIns rest path cost
    else
      if pathSum cfg.distances (listInsertAt iIns cand path) < cfg.maxCost then
        mutateInsertLoop cfg iIns rest (listInsertAt iIns cand path)
          (pathSum cfg.distances (listInsertAt iIns cand path))
      else (path, cost)

/-- The dedup-and-delete phase of `_do_mutation`, entered when
`len(path) > 2`: remove duplicate points, store the deduplicated path's
cost, then delete a random interior point (the stored cost is written
before the deletion and is not updated by it).  `none` models the
`ValueError` of `random.randint(1, 0)` when the deduplicated path has
length 2. -/
def mutateDedupDelete (cfg : Config) (rand : Nat → Nat) (pos : Nat)
    (ind : Individual) : Option (List Nat × ℚ × Nat) :=
  if 2 < ind.path.length then
    match pyRandint rand pos 1
        ((uniquePath cfg.start cfg.endIdx ind.path).length - 2) with
    | none => none
    | some iRem =>
      some (listDeleteAt iRem (uniquePath cfg.start cfg.endIdx ind.path),
        pathSum cfg.distances (uniquePath cfg.start cfg.endIdx ind.path), pos + 1)
  else some (ind.path, ind.cost, pos)

/-- The candidate enumeration and insertion phase of `_do_mutation`:
without profits, candidates in ascending order of `D[from_, :]`
(`numpy.argsort`, ties by index); with profits, `lexsort([increments,
-profits])` — profit descending as the primary key, increment ascending as
the secondary. -/
def mutateInsertPhase (cfg : Config) (iIns fromIdx : Nat) (path1 : List Nat)
    (cost1 : ℚ) : List Nat × ℚ :=
  match cfg.profits with
  | some w => mutateInsertLoop cfg iIns
      (argsortLex (fun j => (-(w j), cfg.distances fromIdx j)) cfg.n) path1 cost1
  | none => mutateInsertLoop cfg iIns
      (argsortLex (fun j => (cfg.distances fromIdx j, 0)) cfg.n) path1 cost1

/-- Embeds `_do_mutation` on one individual: the dedup-and-delete phase, then the
insertion phase at one random position. -/
def mutateOne (cfg : Config) (rand : Nat → Nat) (pos : Nat) (ind : Individual) :
    Option (Individual × Nat) :=
  match mutateDedupDelete cfg rand pos ind with
  | none => none
  | some (path1, cost1, pos1) =>
    match pyRandint rand pos1 1 (path1.length - 1) with
    | none => none
    | some iIns =>
      match path1.get? (iIns - 1) with
      | none => none
      | some fromIdx =>
        some ({ path := (mutateInsertPhase cfg iIns fromIdx path1 cost1).1,
                cost := (mutateInsertPhase cfg iIns fromIdx path1 cost1).2,
                fitness := ind.fitness }, pos1 + 1)

/-- The per-index loop of `_do_mutation`. -/
def mutLoop (cfg : Config) (rand : Nat → Nat) :
    List Nat → List Individual × Nat → Option (List Individual × Nat)
  | [], st => some st
  | i :: rest, (pop, pos) =>
    match pop.get? i with
    | none => none
    | some ind =>
      match mutateOne cfg rand pos ind with
      | none => none
      | some (ind2, pos2) => mutLoop cfg rand rest (pop.set i ind2, pos2)

/-- Embeds `GaSolver._do_mutation`. -/
def doMutation (cfg : Config) (rand : Nat → Nat) (pos : Nat)
    (pop : List Individual) : Option (List Individual × Nat) :=
  mutLoop cfg rand (List.range cfg.populationSize) (pop, pos)

/-- Candidates of one `_init_population_tour` step:
`numpy.where(distances[ind_last] + distances[end] <= max_cost - c)[0]`
(note: the row of `end`, i.e. `D[end, j]`, not `D[j, end]`), then filtered
by `!= end` and `!= ind_last`. -/
def tourCands (cfg : Config) (e indLast : Nat) (c : ℚ) : List Nat :=
  ((List.range cfg.n).filter (fun j =>
    decide (cfg.distances indLast j + cfg.distances e j ≤ cfg.maxCost - c))).filter
    (fun j => !(j = e : Bool) && !(j = indLast : Bool))

/-- The `while True:` walk of `_init_population_tour` (for the given local
`start`/`end` roles), with fuel for the unbounded loop; returns the built
path, its accumulated cost and the next stream position. -/
def tourWalk (cfg : Config) (rand : Nat → Nat) (e : Nat) :
    Nat → Nat → List Nat → ℚ → Nat → Option (List Nat × ℚ × Nat)
  | 0, _, _, _, _ => none
  | fuel + 1, pos, path, c, indLast =>
    let cands := tourCands cfg e indLast c
    if cands.isEmpty then
      some (path ++ [e], c + cfg.distances indLast e, pos)
    else
      match pyChoice rand pos cands with
      | none => none
      | some indNext =>
        if indLast ≠ indNext then
          tourWalk cfg rand e fuel (pos + 1) (path ++ [indNext])
            (c + cfg.distances indLast indNext) indNext
        else
          tourWalk cfg rand e fuel (pos + 1) path c indLast

/-- One individual of `_init_population_tour`: walk from `s` to `e`,
reversing the result for the second half of the population. -/
def tourIndividual (cfg : Config) (rand : Nat → Nat) (s e : Nat) (isRev : Bool)
    (fuel pos : Nat) : Option (Individual × Nat) :=
  match tourWalk cfg rand e fuel pos [s] 0 s with
  | none => none
  | some (p, c, pos2) =>
    some ({ path := if isRev then p.reverse else p, cost := c, fitness := 0 }, pos2)

/-- A block of `count` tour individuals built with the same roles. -/
def tourBlock (cfg : Config) (rand : Nat → Nat) (s e : Nat) (isRev : Bool)
    (fuel : Nat) : Nat → Nat → Option (List Individual × Nat)
  | 0, pos => some ([], pos)
  | count + 1, pos =>
    match tourIndividual cfg rand s e isRev fuel pos with
    | none => none
    | some (ind, pos1) =>
      match tourBlock cfg rand s e isRev fuel count pos1 with
      | none => none
      | some (rest, pos2) => some (ind :: rest, pos2)

/-- Embeds `GaSolver._init_population_tour`: `mid = population_size / 2` (Python 2
integer division); individuals `[0, mid)` are built forward from `start`,
individuals `[mid, population_size)` from `end` and reversed. -/
def initPopulationTour (cfg : Config) (rand : Nat → Nat) (fuel pos : Nat) :
    Option (List Individual × Nat) :=
  let mid := cfg.populationSize / 2
  match tourBlock cfg rand cfg.start cfg.endIdx false fuel mid pos with
  | none => none
  | some (b1, pos1) =>
    match tourBlock cfg rand cfg.endIdx cfg.start true fuel
        (cfg.populationSize - mid) pos1 with
    | none => none
    | some (b2, pos2) => some (b1 ++ b2, pos2)

/-- Candidates of one `_init_population_loop` step:
`numpy.where((d_from != 0) & (d_from < max_init_cost - c))[0]`. -/
def loopCands (cfg : Config) (indLast : Nat) (c : ℚ) : List Nat :=
  (List.range cfg.n).filter (fun j =>
    !(cfg.distances indLast j = 0 : Bool) &&
      decide (cfg.distances indLast j < (1 : ℚ) / 2 * cfg.maxCost - c))

/-- The `while True:` walk of `_init_population_loop`, with fuel.  A drawn
candidate equal to the current point is skipped unless it is the only
candidate (`if ind_last != ind_next or cands.shape[0] == 1`). -/
def loopWalk (cfg : Config) (rand : Nat → Nat) :
    Nat → Nat → List Nat → ℚ → Nat → Option (List Nat × ℚ × Nat)
  | 0, _, _, _, _ => none
  | fuel + 1, pos, path, c, indLast =>
    let cands := loopCands cfg indLast c
    if cands.isEmpty then
      some (path, c, pos)
    else
      match pyChoice rand pos cands with
      | none => none
      | some indNext =>
        if indLast ≠ indNext ∨ cands.length = 1 then
          loopWalk cfg rand fuel (pos + 1) (path ++ [indNext])
            (c + cfg.distances indLast indNext) indNext
        else
          loopWalk cfg rand fuel (pos + 1) path c indLast

/-- Python slice `l[-k:]` (whole list when `k = 0`, as `-0 == 0`). -/
def pyLastK (l : List α) (k : Nat) : List α :=
  if k = 0 then l else l.drop (l.length - k)

/-- One individual of `_init_population_loop`:
`path + path[::-1][-max(0, len(path) - 1):]` with stored cost `2 * c`
(`c` being the accumulated outbound cost). -/
def loopIndividual (cfg : Config) (rand : Nat → Nat) (fuel pos : Nat) :
    Option (Individual × Nat) :=
  match loopWalk cfg rand fuel pos [cfg.start] 0 cfg.start with
  | none => none
  | some (p, c, pos2) =>
    some ({ path := p ++ pyLastK p.reverse (p.length - 1), cost := 2 * c,
            fitness := 0 }, pos2)

/-- The population loop of `_init_population_loop`. -/
def loopBlock (cfg : Config) (rand : Nat → Nat) (fuel : Nat) :
    Nat → Nat → Option (List Individual × Nat)
  | 0, pos => some ([], pos)
  | count + 1, pos =>
    match loopIndividual cfg rand fuel pos with
    | none => none
    | some (ind, pos1) =>
      match loopBlock cfg rand fuel count pos1 with
      | none => none
      | some (rest, pos2) => some (ind :: rest, pos2)

/-- Embeds `GaSolver._init_population_loop`. -/
def initPopulationLoop (cfg : Config) (rand : Nat → Nat) (fuel pos : Nat) :
    Option (List Individual × Nat) :=
  loopBlock cfg rand fuel cfg.populationSize pos

/-- Embeds `self._init_population`: the loop variant when `start == end`, else the
tour variant. -/
def initPopulation (cfg : Config) (rand : Nat → Nat) (fuel pos : Nat) :
    Option (List Individual × Nat) :=
  if cfg.start = cfg.endIdx then initPopulationLoop cfg rand fuel pos
  else initPopulationTour cfg rand fuel pos

/-- The convergence test at the top of a `_iter_generations` iteration with
`generation > min_generations`: compare the fittest of the last
`min(min_generations, 5)` logged generations against the fittest of all
earlier ones, and the cost spread within that window against
`termination_threshold * max_cost`.  `none` models `argmax`/`max` of an
empty slice. -/
def convergenceStop (cfg : Config) (log : List Individual) (generation : Nat) :
    Option Bool :=
  let compareGenerations := min cfg.minGenerations 5
  let lastNg := pySlice log
    ((generation : Int) - (compareGenerations : Int) - 1) ((generation : Int) - 1)
  match lastNg.get? (argmaxIdx (lastNg.map (fun ind => ind.fitness))) with
  | none => none
  | some fittestNg =>
    let compareTo := pySlice log 0 ((generation : Int) - (compareGenerations : Int))
    match compareTo.get? (argmaxIdx (compareTo.map (fun ind => ind.fitness))) with
    | none => none
    | some fittestCompareTo =>
      let deltaFitness := fittestNg.fitness - fittestCompareTo.fitness
      match listMaxQ (lastNg.map (fun ind => ind.cost)),
          listMinQ (lastNg.map (fun ind => ind.cost)) with
      | some cmax, some cmin =>
        let deltaCost := cmax - cmin
        some (decide (deltaFitness < cfg.maxCost) &&
          decide (deltaCost / cfg.maxCost < cfg.terminationThreshold))
      | _, _ => none

/-- The mutable state of `_run`, plus `boundaries`: the list of population
snapshots taken right after each Selection call (the generation
boundaries), earliest first. -/
structure RunState where
  population : List Individual
  fittest : List Individual
  currentGeneration : Nat
  pos : Nat
  boundaries : List (List Individual)
  deriving Repr, DecidableEq

/-- The body of one generation of `_run`: set `current_generation`, then
Crossover, Mutation, Selection. -/
def genStep (cfg : Config) (rand : Nat → Nat) (st : RunState) (generation : Nat) :
    Option RunState :=
  match doCrossover cfg rand st.pos st.population with
  | none => none
  | some (popC, pos1) =>
    match doMutation cfg rand pos1 popC with
    | none => none
    | some (popM, pos2) =>
      match doSelection cfg rand pos2 popM st.fittest generation with
      | none => none
      | some (popS, log2, pos3) =>
        some { population := popS, fittest := log2, currentGeneration := generation,
               pos := pos3, boundaries := st.boundaries ++ [popS] }

/-- The loop of `_run` driven by `_iter_generations`: at the top of each
iteration stop on the wall-clock check (`timeUp`, an oracle for the
untranslatable `time.time()` comparison) or on convergence (only when
`generation > min_generations`). -/
def runLoop (cfg : Config) (rand : Nat → Nat) (timeUp : Nat → Bool) :
    List Nat → RunState → Option RunState
  | [], st => some st
  | g :: rest, st =>
    if timeUp g then some st
    else if cfg.minGenerations < g then
      match convergenceStop cfg st.fittest g with
      | none => none
      | some true => some st
      | some false =>
        match genStep cfg rand st g with
        | none => none
        | some st2 => runLoop cfg rand timeUp rest st2
    else
      match genStep cfg rand st g with
      | none => none
      | some st2 => runLoop cfg rand timeUp rest st2

/-- Embeds `GaSolver._run` (after `_init`): build the initial population, run the
initial Selection with `current_generation = 0`, then iterate the
generations.  The unfilled best-log slots are `numpy.zeros` records
(`cost = fitness = 0.0`; the zero `path` field — the integer `0` in numpy —
is modelled as `[]`; no reachable read of a slot ≥ the current generation
dereferences `path`). -/
def runGA (cfg : Config) (rand : Nat → Nat) (timeUp : Nat → Bool)
    (fuel pos : Nat) : Option RunState :=
  match initPopulation cfg rand fuel pos with
  | none => none
  | some (pop0, pos0) =>
    match doSelection cfg rand pos0 pop0
        (List.replicate cfg.maxGenerations (⟨[], 0, 0⟩ : Individual)) 0 with
    | none => none
    | some (pop1, log1, pos1) =>
      runLoop cfg rand timeUp (List.range cfg.maxGenerations)
        ⟨pop1, log1, 0, pos1, [pop1]⟩

/-- Python `last_ng or self.current_generation` (both `None` and `0` are
falsy). -/
def pyOrDefault (o : Option Nat) (d : Nat) : Nat :=
  match o with
  | none => d
  | some m => if m = 0 then d else m

/-- Embeds `GaSolver.calc_tour(last_ng)`: early exit `([], 0)` when
`max_cost < D[start, end]`; otherwise run and return `(path, cost)` of the
entry of maximal fitness in `fittest[cg - last_ng : cg]`. -/
def calcTour (cfg : Config) (lastNg : Option Nat) (rand : Nat → Nat)
    (timeUp : Nat → Bool) (fuel : Nat) : Option (List Nat × ℚ) :=
  if cfg.maxCost < cfg.distances cfg.start cfg.endIdx then some ([], 0)
  else
    match runGA cfg rand timeUp fuel 0 with
    | none => none
    | some st =>
      match (pySlice st.fittest
          ((st.currentGeneration : Int) -
            (pyOrDefault lastNg st.currentGeneration : Int))
          (st.currentGeneration : Int)).get?
          (argmaxIdx ((pySlice st.fittest
            ((st.currentGeneration : Int) -
              (pyOrDefault lastNg st.currentGeneration : Int))
            (st.currentGeneration : Int)).map (fun ind => ind.fitness))) with
      | none => none
      | some fittest => some (fittest.path, fittest.cost)

/-- Boundary configuration: `D[start, end] = max_cost` exactly
(`D = [[0, 5], [5, 0]]`, `max_cost = 5`). -/
def cfgC1 : Config :=
  { start := 0, endIdx := 1, n := 2,
    distances := fun i j => if i = j then 0 else 5, maxCost := 5,
    profits := none, populationSize := 2, tournamentSize := 5,
    minGenerations := 5, maxGenerations := 2, terminationThreshold := 1/100 }

/-- C1 counterexample: at `D[start, end] = max_cost` (so `>=` holds) the
solver does not return `([], 0)`: it runs generations (the final
`current_generation` is 1) and returns the non-empty path `[0, 1]` with
cost 5.  The early exit only fires for `D[start, end] > max_cost`. -/
theorem calcTour_equality_not_empty :
    cfgC1.distances cfgC1.start cfgC1.endIdx = cfgC1.maxCost ∧
    calcTour cfgC1 none (fun _ => 0) (fun _ => false) 20 = some ([0, 1], 5) ∧
    (runGA cfgC1 (fun _ => 0) (fun _ => false) 20 0).map
      (fun st => st.currentGeneration) = some 1 := by
  with_unfolding_all decide

/-- C3: the failing input.  With `D = [[0, 5], [5, 0]]` and `max_cost = 5`
the early-exit check `max_cost < D[start, end]` does not fire, yet both
individuals produced by `_init_population_tour` get stored cost `5 = max_cost`,
violating the strict bound `cost < max_cost` that the repository's own tests
assert (`numpy.testing.assert_array_less(ga.population['cost'], max_cost)`). -/
theorem init_tour_cost_reaches_max_cost :
    ¬ (cfgC1.maxCost < cfgC1.distances cfgC1.start cfgC1.endIdx) ∧
    (initPopulationTour cfgC1 (fun _ => 0) 20 0).map
      (fun pc => pc.1.map (fun ind => ind.cost)) = some [5, 5] ∧
    ¬ ((5 : ℚ) < cfgC1.maxCost) := by
  with_unfolding_all decide

/-- Loop-variant configuration with an asymmetric distance matrix
(`D[0,1] = 1`, `D[1,0] = 2`, `start = end = 0`). -/
def cfgC2 : Config :=
  { start := 0, endIdx := 0, n := 2,
    distances := fun i j => if i = j then 0 else if i = 0 then 1 else 2,
    maxCost := 10, profits := none, populationSize := 2, tournamentSize := 5,
    minGenerations := 5, maxGenerations := 2, terminationThreshold := 1/100 }

/-- Tour configuration exhibiting a mutation whose deletion is followed by no
accepted insertion (the nearest candidate, node 3, overshoots `max_cost`). -/
def cfgC2m : Config :=
  { start := 0, endIdx := 1, n := 4,
    distances := fun i j =>
      if i = j then 0
      else if (i = 0 ∧ j = 1) ∨ (i = 1 ∧ j = 0) then 3/2
      else if (i = 0 ∧ j = 3) ∨ (i = 3 ∧ j = 0) then 1/2
      else if i = 3 ∨ j = 3 then 10
      else 1,
    maxCost := 4, profits := none, populationSize := 1, tournamentSize := 5,
    minGenerations := 5, maxGenerations := 2, terminationThreshold := 1/100 }

/-- Tour configuration with an asymmetric matrix and odd population size 3
(`D[0,2] = D[2,1] = 1` but `D[1,2] = D[2,0] = 3`; `D[0,1] = D[1,0] = 8`). -/
def cfgC9 : Config :=
  { start := 0, endIdx := 1, n := 3,
    distances := fun i j =>
      if i = j then 0
      else if (i = 0 ∧ j = 1) ∨ (i = 1 ∧ j = 0) then 8
      else if i = 0 ∧ j = 2 then 1
      else if i = 2 ∧ j = 0 then 3
      else if i = 1 ∧ j = 2 then 3
      else 1,
    maxCost := 10, profits := none, populationSize := 3, tournamentSize := 5,
    minGenerations := 5, maxGenerations := 2, terminationThreshold := 1/100 }

/-- C2 counterexample, in three parts.
(1) With `start == end` and the asymmetric `cfgC2` matrix, both individuals
at the very first generation boundary (the population right after the
initial Selection) store cost 8 (`2 * outbound`), while the recomputed sum
over their stored path `[0,1,0,1,0,1,0]` is 9.
(2) A mutation that deletes a point and accepts no insertion leaves the
pre-deletion cost: the stored cost stays 2 while the sum over the stored
path `[0, 1]` is 3/2 (the input individual was consistent).
(3) The reversed half of the tour initialiser stores the construction-
direction sum: individual 1 of `cfgC9`'s population stores cost 6, while the
sum over its stored path `[0, 2, 1]` is 2. -/
theorem cost_field_vs_path_sum_counterexample :
    ((runGA cfgC2 (fun _ => 0) (fun _ => false) 30 0).map (fun st =>
        st.boundaries.head?.map (fun pop => pop.map (fun ind =>
          (ind.cost, pathSum cfgC2.distances ind.path))))) =
      some (some [(8, 9), (8, 9)]) ∧
    (pathSum cfgC2m.distances [0, 2, 1] = 2 ∧
      (mutateOne cfgC2m (fun _ => 0) 0 ⟨[0, 2, 1], 2, 0⟩).map (fun p =>
        (p.1.path, p.1.cost, pathSum cfgC2m.distances p.1.path)) =
        some ([0, 1], 2, 3/2)) ∧
    ((initPopulationTour cfgC9 (fun _ => 0) 30 0).map (fun pc =>
        pc.1.map (fun ind => (ind.cost, pathSum cfgC9.distances ind.path))) =
      some [(2, 2), (6, 2), (6, 2)]) ∧
    (8 : ℚ) ≠ 9 ∧ (2 : ℚ) ≠ 3/2 ∧ (6 : ℚ) ≠ 2 := by
  with_unfolding_all decide

/-- C9 counterexample: with `P = 3` the population is one forward-built
individual followed by two reversed ones — costs `[2, 6, 6]` — whereas a
forward construction from `start` at the same stream position as individual 1
has cost 2.  So only `⌊P/2⌋ = 1` individual (not `⌈P/2⌉ = 2`) is built
forward from `start`. -/
theorem init_tour_forward_count_counterexample :
    cfgC9.populationSize = 3 ∧
    (initPopulationTour cfgC9 (fun _ => 0) 30 0).map (fun pc =>
        pc.1.map (fun ind => ind.cost)) = some [2, 6, 6] ∧
    (tourIndividual cfgC9 (fun _ => 0) cfgC9.start cfgC9.endIdx false 30 1).map
        (fun p => p.1.cost) = some 2 ∧
    (6 : ℚ) ≠ 2 := by
  with_unfolding_all decide

/-- Configuration whose run degrades after generation 0: node 4 is cheap to
reach from node 0 (`D[0,4] = 1/4`) but ruinous to leave, so any insertion
attempt after node 0 aborts the insertion loop. -/
def cfgC5 : Config :=
  { start := 0, endIdx := 1, n := 5,
    distances := fun i j =>
      if i = j then 0
      else if (i = 0 ∧ j = 1) ∨ (i = 1 ∧ j = 0) then 3
      else if i = 4 ∨ j = 4 then (if i = 0 ∧ j = 4 then 1/4 else 10)
      else 1,
    maxCost := 7/2, profits := none, populationSize := 2, tournamentSize := 5,
    minGenerations := 5, maxGenerations := 3, terminationThreshold := 1/100 }

/-- Random stream for the `cfgC5` run: the generation-0 mutations insert at
position 2 (succeeding), the later ones at position 1 (aborting). -/
def randC5 : Nat → Nat := fun pos => if pos = 27 ∨ pos = 29 then 1 else 0

/-- C5 counterexample: the run executes generations 0..2 of the best log
(`current_generation = 2`), whose entries are
`(path [0,3,2,1], cost 3, fitness 11)`, `([0,2,1], 3, 15/2)`,
`([0,1], 2, 5)`.  With `last_n` omitted, `calc_tour` returns
`([0,3,2,1], 3)` — the maximum over generations 0..1, which includes
generation 0 and excludes the final generation 2 — whereas the maximum over
generations 1..2 is the entry `([0,2,1], 3)`. -/
theorem calcTour_default_window_counterexample :
    (runGA cfgC5 randC5 (fun _ => false) 30 0).map
        (fun st => (st.currentGeneration, st.fittest)) =
      some (2, [⟨[0, 3, 2, 1], 3, 11⟩, ⟨[0, 2, 1], 3, 15/2⟩, ⟨[0, 1], 2, 5⟩]) ∧
    calcTour cfgC5 none randC5 (fun _ => false) 30 = some ([0, 3, 2, 1], 3) ∧
    argmaxIdx ([(⟨[0, 2, 1], 3, 15/2⟩ : Individual),
        ⟨[0, 1], 2, 5⟩].map (fun ind => ind.fitness)) = 0 ∧
    ([0, 2, 1], (3 : ℚ)) ≠ ([0, 3, 2, 1], (3 : ℚ)) := by
  with_unfolding_all decide

/-- C10: `last_ng or self.current_generation` treats `0` like `None`, so
`calc_tour(0)` behaves identically to `calc_tour()`: the full default window
is used rather than an empty one. -/
theorem calcTour_lastn_zero_is_default (cfg : Config) (rand : Nat → Nat)
    (timeUp : Nat → Bool) (fuel : Nat) :
    calcTour cfg (some 0) rand timeUp fuel = calcTour cfg none rand timeUp fuel := by
  have h : pyOrDefault (some 0) = pyOrDefault none := by
    funext d
    simp [pyOrDefault]
  unfold calcTour
  rw [h]

lemma tourBlock_length (cfg : Config) (rand : Nat → Nat) (s e : Nat)
    (isRev : Bool) (fuel : Nat) :
    ∀ (count pos : Nat) (l : List Individual) (pos2 : Nat),
      tourBlock cfg rand s e isRev fuel count pos = some (l, pos2) →
      l.length = count := by
  intro count
  induction count with
  | zero =>
    intro pos l pos2 h
    rw [tourBlock] at h
    cases h
    rfl
  | succ m ih =>
    intro pos l pos2 h
    rw [tourBlock] at h
    split at h
    · cases h
    · rename_i ind pos1 hind
      split at h
      · cases h
      · rename_i rest pos3 hrest
        cases h
        simp [ih _ _ _ hrest]

lemma initPopulationTour_split (cfg : Config) (rand : Nat → Nat)
    (fuel pos : Nat) (pop : List Individual) (pos2 : Nat)
    (h : initPopulationTour cfg rand fuel pos = some (pop, pos2)) :
    ∃ (b1 b2 : List Individual) (posMid : Nat),
      tourBlock cfg rand cfg.start cfg.endIdx false fuel
          (cfg.populationSize / 2) pos = some (b1, posMid) ∧
      tourBlock cfg rand cfg.endIdx cfg.start true fuel
          (cfg.populationSize - cfg.populationSize / 2) posMid = some (b2, pos2) ∧
      pop = b1 ++ b2 ∧
      b1.length = cfg.populationSize / 2 ∧
      b2.length = cfg.populationSize - cfg.populationSize / 2 := by
  rw [initPopulationTour] at h
  split at h
  · cases h
  · rename_i b1 pos1 h1
    split at h
    · cases h
    · rename_i b2 pos3 h2
      cases h
      exact ⟨b1, b2, pos1, h1, h2, rfl,
        tourBlock_length cfg rand _ _ _ fuel _ pos _ _ h1,
        tourBlock_length cfg rand _ _ _ fuel _ pos1 _ _ h2⟩

/-- C9 (amended): for every start/end and population size `P`, the tour
initialiser builds exactly `⌊P/2⌋` individuals by forward construction from
`start` (Python 2 integer division `P / 2`), followed by the remaining
`P - ⌊P/2⌋ = ⌈P/2⌉` individuals by the symmetric construction from `end`,
reversed before storing. -/
theorem init_tour_floor_split (cfg : Config) (rand : Nat → Nat)
    (fuel pos : Nat) (pop : List Individual) (pos2 : Nat)
    (h : initPopulationTour cfg rand fuel pos = some (pop, pos2)) :
    ∃ (b1 b2 : List Individual) (posMid : Nat),
      tourBlock cfg rand cfg.start cfg.endIdx false fuel
          (cfg.populationSize / 2) pos = some (b1, posMid) ∧
      tourBlock cfg rand cfg.endIdx cfg.start true fuel
          (cfg.populationSize - cfg.populationSize / 2) posMid = some (b2, pos2) ∧
      pop = b1 ++ b2 ∧
      b1.length = cfg.populationSize / 2 ∧
      b2.length = cfg.populationSize - cfg.populationSize / 2 :=
  initPopulationTour_split cfg rand fuel pos pop pos2 h

/-- Witness for the amended tour-initialiser split at `P = 3`. -/
theorem init_tour_floor_split_witness :
    ∃ (b1 b2 : List Individual) (posMid : Nat),
      tourBlock cfgC9 (fun _ => 0) cfgC9.start cfgC9.endIdx false 30
          (cfgC9.populationSize / 2) 0 = some (b1, posMid) ∧
      tourBlock cfgC9 (fun _ => 0) cfgC9.endIdx cfgC9.start true 30
          (cfgC9.populationSize - cfgC9.populationSize / 2) posMid = some (b2, 3) ∧
      [(⟨[0, 2, 1], 2, 0⟩ : Individual), ⟨[0, 2, 1], 6, 0⟩, ⟨[0, 2, 1], 6, 0⟩]
          = b1 ++ b2 ∧
      b1.length = cfgC9.populationSize / 2 ∧
      b2.length = cfgC9.populationSize - cfgC9.populationSize / 2 :=
  init_tour_floor_split cfgC9 (fun _ => 0) 30 0 _ 3 (by with_unfolding_all decide)

/-- C5 (amended): when `last_n` is omitted and the run executed generations
`0..k` of the best log (`current_generation = k ≥ 1`), the returned
`(path, cost)` is the entry of maximum fitness (first on ties) over the
best-log entries of generations `0..k-1` — the window includes generation 0
and excludes the final generation `k`. -/
theorem calcTour_default_window (cfg : Config) (rand : Nat → Nat)
    (timeUp : Nat → Bool) (fuel : Nat) (st : RunState)
    (hrun : runGA cfg rand timeUp fuel 0 = some st)
    (hne : ¬ cfg.maxCost < cfg.distances cfg.start cfg.endIdx)
    (hcg1 : 1 ≤ st.currentGeneration)
    (hlen : st.currentGeneration ≤ st.fittest.length) :
    ∃ best,
      (st.fittest.take st.currentGeneration).get?
          (argmaxIdx ((st.fittest.take st.currentGeneration).map
            (fun ind => ind.fitness))) = some best ∧
      calcTour cfg none rand timeUp fuel = some (best.path, best.cost) := by
  have hz : ((st.currentGeneration : Int) -
      (pyOrDefault none st.currentGeneration : Int)) = 0 := by
    simp [pyOrDefault]
  have e1 : sliceIdx st.fittest.length 0 = 0 := by
    unfold sliceIdx
    norm_num
  have e2 : sliceIdx st.fittest.length (st.currentGeneration : Int) =
      st.currentGeneration := by
    unfold sliceIdx
    omega
  have hgroup : pySlice st.fittest
      ((st.currentGeneration : Int) - (pyOrDefault none st.currentGeneration : Int))
      (st.currentGeneration : Int) = st.fittest.take st.currentGeneration := by
    unfold pySlice
    rw [hz, e1, e2]
    simp
  have hglen : (st.fittest.take st.currentGeneration).length =
      st.currentGeneration := by
    simp
    omega
  have hne2 : (st.fittest.take st.currentGeneration).map (fun ind => ind.fitness)
      ≠ [] := by
    intro hemp
    have := congrArg List.length hemp
    simp only [List.length_map, hglen, List.length_nil] at this
    omega
  have hlt : argmaxIdx ((st.fittest.take st.currentGeneration).map
      (fun ind => ind.fitness)) < (st.fittest.take st.currentGeneration).length := by
    have := argmaxIdx_lt _ hne2
    simpa using this
  obtain ⟨best, hbest⟩ : ∃ best, (st.fittest.take st.currentGeneration).get?
      (argmaxIdx ((st.fittest.take st.currentGeneration).map
        (fun ind => ind.fitness))) = some best :=
    ⟨_, List.get?_eq_get hlt⟩
  refine ⟨best, hbest, ?_⟩
  unfold calcTour
  rw [if_neg hne]
  rw [hrun]
  simp only [hgroup, hbest]

/-- The individual every slot of the `cfgC1` run converges to. -/
def indC1 : Individual := ⟨[0, 1], 5, 5⟩

/-- The final state of the `cfgC1` run. -/
def stC1 : RunState :=
  ⟨[indC1, indC1], [indC1, indC1], 1, 66,
    [[indC1, indC1], [indC1, indC1], [indC1, indC1]]⟩

/-- Witness for the default-window theorem on the concrete `cfgC1` run. -/
theorem calcTour_default_window_witness :
    ∃ best,
      (stC1.fittest.take stC1.currentGeneration).get?
          (argmaxIdx ((stC1.fittest.take stC1.currentGeneration).map
            (fun ind => ind.fitness))) = some best ∧
      calcTour cfgC1 none (fun _ => 0) (fun _ => false) 20
        = some (best.path, best.cost) :=
  calcTour_default_window cfgC1 (fun _ => 0) (fun _ => false) 20 stC1
    (by with_unfolding_all decide) (by with_unfolding_all decide)
    (by decide) (by decide)

lemma pathSum_snoc (D : Nat → Nat → ℚ) (a y : Nat) :
    ∀ (p : List Nat), p.getLast? = some a →
      pathSum D (p ++ [y]) = pathSum D p + D a y := by
  intro p
  induction p with
  | nil => intro h; cases h
  | cons b rest ih =>
    intro h
    cases rest with
    | nil =>
      simp only [List.getLast?_singleton, Option.some.injEq] at h
      subst h
      simp [pathSum]
    | cons c rest2 =>
      have h2 : (c :: rest2).getLast? = some a := by
        rwa [List.getLast?_cons_cons] at h
      have hrec := ih h2
      rw [List.cons_append] at hrec
      show D b c + pathSum D (c :: (rest2 ++ [y])) = pathSum D (b :: c :: rest2) + D a y
      rw [hrec]
      show D b c + (pathSum D (c :: rest2) + D a y) =
        D b c + pathSum D (c :: rest2) + D a y
      ring

lemma listInsertAt_length (i : Nat) (x : Nat) (l : List Nat) (h : i ≤ l.length) :
    (listInsertAt i x l).length = l.length + 1 := by
  unfold listInsertAt
  simp
  omega

lemma listInsertAt_head (i : Nat) (x : Nat) (l : List Nat) (h1 : 1 ≤ i)
    (hne : l ≠ []) : (listInsertAt i x l).head? = l.head? := by
  unfold listInsertAt
  have htake : l.take i ≠ [] := by
    intro hemp
    have hlen := congrArg List.length hemp
    rw [List.length_take] at hlen
    simp only [List.length_nil] at hlen
    have hlp : 0 < l.length := List.length_pos.mpr hne
    omega
  rw [List.head?_append_of_ne_nil _ htake]
  cases l with
  | nil => exact absurd rfl hne
  | cons b rest =>
    cases i with
    | zero => omega
    | succ j => simp

lemma drop_ne_nil_of_lt (l : List Nat) (i : Nat) (h : i < l.length) :
    l.drop i ≠ [] := by
  intro hemp
  have := congrArg List.length hemp
  simp at this
  omega

lemma listInsertAt_getLast (i : Nat) (x : Nat) (l : List Nat)
    (h : i ≤ l.length - 1) (hne : l ≠ []) :
    (listInsertAt i x l).getLast? = l.getLast? := by
  have hlp : 0 < l.length := List.length_pos.mpr hne
  have hdrop : l.drop i ≠ [] := drop_ne_nil_of_lt l i (by omega)
  obtain ⟨b, B, hB⟩ : ∃ b B, l.drop i = b :: B := by
    cases hd : l.drop i with
    | nil => exact absurd hd hdrop
    | cons b B => exact ⟨b, B, rfl⟩
  unfold listInsertAt
  rw [hB, List.getLast?_append_cons, List.getLast?_cons_cons]
  conv_rhs => rw [← List.take_append_drop i l, hB, List.getLast?_append_cons]

lemma listDeleteAt_eq (i : Nat) (l : List Nat) :
    listDeleteAt i l = l.take i ++ l.drop (i + 1) := by
  induction l generalizing i with
  | nil => cases i <;> rfl
  | cons x xs ih =>
    cases i with
    | zero => rfl
    | succ j =>
      show x :: listDeleteAt j xs = x :: (xs.take j ++ xs.drop (j + 1))
      rw [ih]

lemma listDeleteAt_length (i : Nat) (l : List Nat) (h : i < l.length) :
    (listDeleteAt i l).length = l.length - 1 := by
  rw [listDeleteAt_eq]
  simp
  omega

lemma listDeleteAt_head (i : Nat) (l : List Nat) (h1 : 1 ≤ i) (hne : l ≠ []) :
    (listDeleteAt i l).head? = l.head? := by
  rw [listDeleteAt_eq]
  have htake : l.take i ≠ [] := by
    intro hemp
    have hlen := congrArg List.length hemp
    rw [List.length_take] at hlen
    simp only [List.length_nil] at hlen
    have hlp : 0 < l.length := List.length_pos.mpr hne
    omega
  rw [List.head?_append_of_ne_nil _ htake]
  cases l with
  | nil => exact absurd rfl hne
  | cons b rest =>
    cases i with
    | zero => omega
    | succ j => simp

lemma listDeleteAt_getLast (i : Nat) (l : List Nat) (h : i + 2 ≤ l.length) :
    (listDeleteAt i l).getLast? = l.getLast? := by
  rw [listDeleteAt_eq]
  have hdrop : l.drop (i + 1) ≠ [] := drop_ne_nil_of_lt l (i + 1) (by omega)
  rw [List.getLast?_append_of_ne_nil _ hdrop]
  conv_rhs => rw [← List.take_append_drop (i + 1) l]
  rw [List.getLast?_append_of_ne_nil _ hdrop]

lemma listIndex_lt (g : Nat) : ∀ (l : List Nat), g ∈ l → listIndex g l < l.length := by
  intro l
  induction l with
  | nil => intro h; cases h
  | cons y ys ih =>
    intro h
    unfold listIndex
    split
    · simp
    · rename_i hne
      have : g ∈ ys := by
        rcases List.mem_cons.mp h with rfl | hmem
        · exact absurd rfl hne
        · exact hmem
      have := ih this
      simp only [List.length_cons]
      omega

lemma get_listIndex (g : Nat) : ∀ (l : List Nat), g ∈ l →
    l.get? (listIndex g l) = some g := by
  intro l
  induction l with
  | nil => intro h; cases h
  | cons y ys ih =>
    intro h
    unfold listIndex
    split
    · rename_i heq; simp [heq]
    · rename_i hne
      have hmem : g ∈ ys := by
        rcases List.mem_cons.mp h with rfl | hmem
        · exact absurd rfl hne
        · exact hmem
      simpa using ih hmem

lemma mem_take_mono {l : List Individual} {m n : Nat} (h : m ≤ n)
    {x : Individual} (hx : x ∈ l.take m) : x ∈ l.take n := by
  have h1 : l.take m = (l.take n).take m := by
    rw [List.take_take, Nat.min_eq_left h]
  rw [h1] at hx
  exact List.IsPrefix.mem hx (List.take_prefix m (l.take n))

/-- The path-shape invariant of §3 of the specification that the proofs
below track: the path starts at `start`, ends at `end` and has length at
least 2. -/
def IndInv (cfg : Config) (ind : Individual) : Prop :=
  ind.path.head? = some cfg.start ∧ ind.path.getLast? = some cfg.endIdx ∧
    2 ≤ ind.path.length

lemma tourWalk_spec (cfg : Config) (rand : Nat → Nat) (e : Nat) :
    ∀ (fuel pos : Nat) (path : List Nat) (c : ℚ) (indLast : Nat)
      (p2 : List Nat) (c2 : ℚ) (pos2 : Nat),
      tourWalk cfg rand e fuel pos path c indLast = some (p2, c2, pos2) →
      path ≠ [] → path.getLast? = some indLast →
      c = pathSum cfg.distances path →
      c2 = pathSum cfg.distances p2 ∧ p2.getLast? = some e ∧
      p2.head? = path.head? ∧ path.length + 1 ≤ p2.length := by
  intro fuel
  induction fuel with
  | zero => intro pos path c indLast p2 c2 pos2 h; cases h
  | succ f ih =>
    intro pos path c indLast p2 c2 pos2 h hne hlast hsum
    rw [tourWalk] at h
    split at h
    · cases h
      refine ⟨?_, ?_, ?_, ?_⟩
      · rw [hsum, pathSum_snoc cfg.distances indLast e path hlast]
      · rw [List.getLast?_append_of_ne_nil _ (by simp : [e] ≠ [])]
        rfl
      · exact List.head?_append_of_ne_nil path hne
      · simp
    · split at h
      · cases h
      · rename_i indNext hchoice
        split at h
        · have hrec := ih (pos + 1) (path ++ [indNext])
            (c + cfg.distances indLast indNext) indNext p2 c2 pos2 h
            (by simp) (by rw [List.getLast?_append_of_ne_nil _
              (by simp : [indNext] ≠ [])]; rfl)
            (by rw [hsum, pathSum_snoc cfg.distances indLast indNext path hlast])
          refine ⟨hrec.1, hrec.2.1, ?_, ?_⟩
          · rw [hrec.2.2.1, List.head?_append_of_ne_nil path hne]
          · have := hrec.2.2.2
            simp only [List.length_append, List.length_singleton] at this
            omega
        · exact ih (pos + 1) path c indLast p2 c2 pos2 h hne hlast hsum

lemma tourIndividual_fwd_spec (cfg : Config) (rand : Nat → Nat)
    (fuel pos : Nat) (ind : Individual) (pos2 : Nat)
    (h : tourIndividual cfg rand cfg.start cfg.endIdx false fuel pos
      = some (ind, pos2)) :
    ind.cost = pathSum cfg.distances ind.path ∧ IndInv cfg ind := by
  rw [tourIndividual] at h
  split at h
  · cases h
  · rename_i p c pos3 hwalk
    have hs := tourWalk_spec cfg rand cfg.endIdx fuel pos [cfg.start] 0
      cfg.start p c pos3 hwalk (by simp) (by simp) (by rfl)
    cases h
    refine ⟨hs.1, ?_, ?_, ?_⟩
    · show p.head? = some cfg.start
      rw [hs.2.2.1]
      rfl
    · exact hs.2.1
    · have := hs.2.2.2
      simpa using this

lemma tourIndividual_rev_inv (cfg : Config) (rand : Nat → Nat)
    (fuel pos : Nat) (ind : Individual) (pos2 : Nat)
    (h : tourIndividual cfg rand cfg.endIdx cfg.start true fuel pos
      = some (ind, pos2)) : IndInv cfg ind := by
  rw [tourIndividual] at h
  split at h
  · cases h
  · rename_i p c pos3 hwalk
    have hs := tourWalk_spec cfg rand cfg.start fuel pos [cfg.endIdx] 0
      cfg.endIdx p c pos3 hwalk (by simp) (by simp) (by rfl)
    cases h
    refine ⟨?_, ?_, ?_⟩
    · show p.reverse.head? = some cfg.start
      rw [List.head?_reverse]
      exact hs.2.1
    · show p.reverse.getLast? = some cfg.endIdx
      rw [List.getLast?_reverse]
      rw [hs.2.2.1]
      rfl
    · show 2 ≤ p.reverse.length
      have := hs.2.2.2
      simp only [List.length_reverse]
      simpa using this

lemma tourBlock_fwd_spec (cfg : Config) (rand : Nat → Nat) (fuel : Nat) :
    ∀ (count pos : Nat) (b : List Individual) (pos2 : Nat),
      tourBlock cfg rand cfg.start cfg.endIdx false fuel count pos
        = some (b, pos2) →
      ∀ ind ∈ b, ind.cost = pathSum cfg.distances ind.path ∧ IndInv cfg ind := by
  intro count
  induction count with
  | zero =>
    intro pos b pos2 h
    rw [tourBlock] at h
    cases h
    intro ind hmem
    cases hmem
  | succ m ih =>
    intro pos b pos2 h
    rw [tourBlock] at h
    split at h
    · cases h
    · rename_i ind1 pos1 hind
      split at h
      · cases h
      · rename_i rest pos3 hrest
        cases h
        intro ind hmem
        rcases List.mem_cons.mp hmem with rfl | hmem
        · exact tourIndividual_fwd_spec cfg rand fuel pos ind pos1 hind
        · exact ih pos1 rest _ hrest ind hmem

lemma tourBlock_rev_inv (cfg : Config) (rand : Nat → Nat) (fuel : Nat) :
    ∀ (count pos : Nat) (b : List Individual) (pos2 : Nat),
      tourBlock cfg rand cfg.endIdx cfg.start true fuel count pos
        = some (b, pos2) →
      ∀ ind ∈ b, IndInv cfg ind := by
  intro count
  induction count with
  | zero =>
    intro pos b pos2 h
    rw [tourBlock] at h
    cases h
    intro ind hmem
    cases hmem
  | succ m ih =>
    intro pos b pos2 h
    rw [tourBlock] at h
    split at h
    · cases h
    · rename_i ind1 pos1 hind
      split at h
      · cases h
      · rename_i rest pos3 hrest
        cases h
        intro ind hmem
        rcases List.mem_cons.mp hmem with rfl | hmem
        · exact tourIndividual_rev_inv cfg rand fuel pos ind pos1 hind
        · exact ih pos1 rest _ hrest ind hmem

lemma initPopulationTour_inv (cfg : Config) (rand : Nat → Nat)
    (fuel pos : Nat) (pop : List Individual) (pos2 : Nat)
    (h : initPopulationTour cfg rand fuel pos = some (pop, pos2)) :
    ∀ ind ∈ pop, IndInv cfg ind := by
  obtain ⟨b1, b2, posMid, h1, h2, rfl, -, -⟩ :=
    initPopulationTour_split cfg rand fuel pos pop pos2 h
  intro ind hmem
  rcases List.mem_append.mp hmem with hmem | hmem
  · exact (tourBlock_fwd_spec cfg rand fuel _ pos b1 posMid h1 ind hmem).2
  · exact tourBlock_rev_inv cfg rand fuel _ posMid b2 pos2 h2 ind hmem

lemma getLast?_drop_of_ne_nil (l : List Nat) (i : Nat) (h : l.drop i ≠ []) :
    (l.drop i).getLast? = l.getLast? := by
  conv_rhs => rw [← List.take_append_drop i l]
  rw [List.getLast?_append_of_ne_nil _ h]

lemma loopWalk_spec (cfg : Config) (rand : Nat → Nat) :
    ∀ (fuel pos : Nat) (path : List Nat) (c : ℚ) (indLast : Nat)
      (p2 : List Nat) (c2 : ℚ) (pos2 : Nat),
      loopWalk cfg rand fuel pos path c indLast = some (p2, c2, pos2) →
      path ≠ [] → p2.head? = path.head? ∧ p2 ≠ [] := by
  intro fuel
  induction fuel with
  | zero => intro pos path c indLast p2 c2 pos2 h; cases h
  | succ f ih =>
    intro pos path c indLast p2 c2 pos2 h hne
    rw [loopWalk] at h
    split at h
    · cases h
      exact ⟨rfl, hne⟩
    · split at h
      · cases h
      · rename_i indNext hchoice
        split at h
        · have hrec := ih (pos + 1) (path ++ [indNext])
            (c + cfg.distances indLast indNext) indNext p2 c2 pos2 h (by simp)
          refine ⟨?_, hrec.2⟩
          rw [hrec.1, List.head?_append_of_ne_nil path hne]
        · exact ih (pos + 1) path c indLast p2 c2 pos2 h hne

lemma loopIndividual_inv (cfg : Config) (rand : Nat → Nat)
    (hse : cfg.start = cfg.endIdx) (fuel pos : Nat) (ind : Individual)
    (pos2 : Nat) (h : loopIndividual cfg rand fuel pos = some (ind, pos2)) :
    IndInv cfg ind := by
  rw [loopIndividual] at h
  split at h
  · cases h
  · rename_i p c pos3 hwalk
    have hs := loopWalk_spec cfg rand fuel pos [cfg.start] 0 cfg.start
      p c pos3 hwalk (by simp)
    cases h
    have hhead : p.head? = some cfg.start := by rw [hs.1]; rfl
    have hpne : p ≠ [] := hs.2
    have hlp : 0 < p.length := List.length_pos.mpr hpne
    constructor
    · show (p ++ pyLastK p.reverse (p.length - 1)).head? = some cfg.start
      rw [List.head?_append_of_ne_nil p hpne]
      exact hhead
    constructor
    · show (p ++ pyLastK p.reverse (p.length - 1)).getLast? = some cfg.endIdx
      unfold pyLastK
      split
      · rename_i hk0
        -- p has length 1, so p = [start] and the stored path is [start, start]
        have hp1 : p.length = 1 := by omega
        obtain ⟨x, rfl⟩ : ∃ x, p = [x] := by
          cases p with
          | nil => exact absurd rfl hpne
          | cons x xs =>
            cases xs with
            | nil => exact ⟨x, rfl⟩
            | cons y ys => simp at hp1
        simp only [List.head?_cons, Option.some.injEq] at hhead
        subst hhead
        rw [← hse]
        rfl
      · rename_i hk0
        have hd : p.reverse.drop (p.reverse.length - (p.length - 1)) ≠ [] := by
          apply drop_ne_nil_of_lt
          simp only [List.length_reverse]
          omega
        rw [List.getLast?_append_of_ne_nil _ hd,
          getLast?_drop_of_ne_nil _ _ hd, List.getLast?_reverse, hhead, hse]
    · show 2 ≤ (p ++ pyLastK p.reverse (p.length - 1)).length
      unfold pyLastK
      split
      · simp only [List.length_append, List.length_reverse]
        omega
      · rename_i hk0
        simp only [List.length_append, List.length_drop, List.length_reverse]
        omega

lemma loopBlock_inv (cfg : Config) (rand : Nat → Nat)
    (hse : cfg.start = cfg.endIdx) (fuel : Nat) :
    ∀ (count pos : Nat) (b : List Individual) (pos2 : Nat),
      loopBlock cfg rand fuel count pos = some (b, pos2) →
      ∀ ind ∈ b, IndInv cfg ind := by
  intro count
  induction count with
  | zero =>
    intro pos b pos2 h
    rw [loopBlock] at h
    cases h
    intro ind hmem
    cases hmem
  | succ m ih =>
    intro pos b pos2 h
    rw [loopBlock] at h
    split at h
    · cases h
    · rename_i ind1 pos1 hind
      split at h
      · cases h
      · rename_i rest pos3 hrest
        cases h
        intro ind hmem
        rcases List.mem_cons.mp hmem with rfl | hmem
        · exact loopIndividual_inv cfg rand hse fuel pos ind pos1 hind
        · exact ih pos1 rest _ hrest ind hmem

lemma initPopulation_inv (cfg : Config) (rand : Nat → Nat)
    (fuel pos : Nat) (pop : List Individual) (pos2 : Nat)
    (h : initPopulation cfg rand fuel pos = some (pop, pos2)) :
    ∀ ind ∈ pop, IndInv cfg ind := by
  rw [initPopulation] at h
  split at h
  · rename_i hse
    exact loopBlock_inv cfg rand hse fuel cfg.populationSize pos pop pos2 h
  · exact initPopulationTour_inv cfg rand fuel pos pop pos2 h

lemma pyRandint_bounds (rand : Nat → Nat) (pos a b v : Nat)
    (h : pyRandint rand pos a b = some v) : a ≤ v ∧ v ≤ b := by
  unfold pyRandint at h
  split at h
  · cases h
  · rename_i hba
    cases h
    have hmod : rand pos % (b + 1 - a) < b + 1 - a :=
      Nat.mod_lt _ (by omega)
    omega

lemma uniquePath_shape (s e : Nat) (path : List Nat) :
    (uniquePath s e path).head? = some s ∧
    (uniquePath s e path).getLast? = some e ∧
    2 ≤ (uniquePath s e path).length := by
  unfold uniquePath
  refine ⟨?_, ?_, ?_⟩
  · rw [List.head?_append_of_ne_nil _ (by simp)]
    rfl
  · rw [List.getLast?_append_of_ne_nil _ (by simp : [e] ≠ [])]
    rfl
  · simp

lemma mutateInsertLoop_shape (cfg : Config) (iIns : Nat) :
    ∀ (cands path : List Nat) (cost : ℚ),
      path.head? = some cfg.start → path.getLast? = some cfg.endIdx →
      2 ≤ path.length → 1 ≤ iIns → iIns ≤ path.length - 1 →
      (mutateInsertLoop cfg iIns cands path cost).1.head? = some cfg.start ∧
      (mutateInsertLoop cfg iIns cands path cost).1.getLast? = some cfg.endIdx ∧
      2 ≤ (mutateInsertLoop cfg iIns cands path cost).1.length := by
  intro cands
  induction cands with
  | nil =>
    intro path cost hh hl hlen h1 h2
    exact ⟨hh, hl, hlen⟩
  | cons cand rest ih =>
    intro path cost hh hl hlen h1 h2
    rw [mutateInsertLoop]
    split
    · exact ih path cost hh hl hlen h1 h2
    · rename_i hnotin
      split
      · rename_i hcost
        have hne : path ≠ [] := by
          intro hemp; rw [hemp] at hh; cases hh
        have hins1 : (listInsertAt iIns cand path).head? = some cfg.start := by
          rw [listInsertAt_head iIns cand path h1 hne]; exact hh
        have hins2 : (listInsertAt iIns cand path).getLast? = some cfg.endIdx := by
          rw [listInsertAt_getLast iIns cand path h2 hne]; exact hl
        have hins3 : (listInsertAt iIns cand path).length = path.length + 1 :=
          listInsertAt_length iIns cand path (by omega)
        exact ih (listInsertAt iIns cand path) _ hins1 hins2 (by omega) h1 (by omega)
      · exact ⟨hh, hl, hlen⟩

lemma mutateDedupDelete_shape (cfg : Config) (rand : Nat → Nat) (pos : Nat)
    (ind : Individual) (path1 : List Nat) (cost1 : ℚ) (pos1 : Nat)
    (hInv : IndInv cfg ind)
    (h : mutateDedupDelete cfg rand pos ind = some (path1, cost1, pos1)) :
    path1.head? = some cfg.start ∧ path1.getLast? = some cfg.endIdx ∧
      2 ≤ path1.length := by
  obtain ⟨hh, hl, hlen⟩ := hInv
  rw [mutateDedupDelete] at h
  split at h
  · rename_i hgt
    split at h
    · cases h
    · rename_i iRem hrem
      cases h
      obtain ⟨hu1, hu2, hu3⟩ := uniquePath_shape cfg.start cfg.endIdx ind.path
      obtain ⟨hr1, hr2⟩ := pyRandint_bounds rand pos 1
        ((uniquePath cfg.start cfg.endIdx ind.path).length - 2) iRem hrem
      have hulen3 : 3 ≤ (uniquePath cfg.start cfg.endIdx ind.path).length := by
        by_contra hcon
        have h2' : (uniquePath cfg.start cfg.endIdx ind.path).length = 2 := by
          omega
        rw [pyRandint, h2'] at hrem
        simp at hrem
      have hune : uniquePath cfg.start cfg.endIdx ind.path ≠ [] := by
        intro hemp
        rw [hemp] at hu3
        simp at hu3
      refine ⟨?_, ?_, ?_⟩
      · rw [listDeleteAt_head iRem _ hr1 hune]
        exact hu1
      · rw [listDeleteAt_getLast iRem _ (by omega)]
        exact hu2
      · rw [listDeleteAt_length iRem _ (by omega)]
        omega
  · cases h
    exact ⟨hh, hl, hlen⟩

lemma mutateInsertPhase_shape (cfg : Config) (iIns fromIdx : Nat)
    (path1 : List Nat) (cost1 : ℚ)
    (hh : path1.head? = some cfg.start) (hl : path1.getLast? = some cfg.endIdx)
    (hlen : 2 ≤ path1.length) (h1 : 1 ≤ iIns) (h2 : iIns ≤ path1.length - 1) :
    (mutateInsertPhase cfg iIns fromIdx path1 cost1).1.head? = some cfg.start ∧
    (mutateInsertPhase cfg iIns fromIdx path1 cost1).1.getLast?
      = some cfg.endIdx ∧
    2 ≤ (mutateInsertPhase cfg iIns fromIdx path1 cost1).1.length := by
  rw [mutateInsertPhase]
  split
  · exact mutateInsertLoop_shape cfg iIns _ path1 cost1 hh hl hlen h1 h2
  · exact mutateInsertLoop_shape cfg iIns _ path1 cost1 hh hl hlen h1 h2

lemma mutateOne_inv (cfg : Config) (rand : Nat → Nat) (pos : Nat)
    (ind ind2 : Individual) (pos2 : Nat) (hInv : IndInv cfg ind)
    (h : mutateOne cfg rand pos ind = some (ind2, pos2)) : IndInv cfg ind2 := by
  rw [mutateOne] at h
  split at h
  · cases h
  · rename_i path1 cost1 pos1 hstep
    obtain ⟨h1h, h1l, h1len⟩ :=
      mutateDedupDelete_shape cfg rand pos ind path1 cost1 pos1 hInv hstep
    split at h
    · cases h
    · rename_i iIns hins
      obtain ⟨hi1, hi2⟩ := pyRandint_bounds rand pos1 1 (path1.length - 1) iIns hins
      split at h
      · cases h
      · rename_i fromIdx hfrom
        cases h
        exact mutateInsertPhase_shape cfg iIns fromIdx path1 cost1
          h1h h1l h1len hi1 hi2

lemma mutLoop_inv (cfg : Config) (rand : Nat → Nat) :
    ∀ (idxs : List Nat) (pop : List Individual) (pos : Nat)
      (pop2 : List Individual) (pos2 : Nat),
      mutLoop cfg rand idxs (pop, pos) = some (pop2, pos2) →
      (∀ ind ∈ pop, IndInv cfg ind) → ∀ ind ∈ pop2, IndInv cfg ind := by
  intro idxs
  induction idxs with
  | nil =>
    intro pop pos pop2 pos2 h hpop
    rw [mutLoop] at h
    cases h
    exact hpop
  | cons i rest ih =>
    intro pop pos pop2 pos2 h hpop
    rw [mutLoop] at h
    split at h
    · cases h
    · rename_i ind hget
      split at h
      · cases h
      · rename_i ind2 pos3 hmut
        have hind : IndInv cfg ind := hpop ind (List.get?_mem hget)
        have hind2 : IndInv cfg ind2 := mutateOne_inv cfg rand pos ind ind2 pos3 hind hmut
        refine ih (pop.set i ind2) pos3 pop2 pos2 h ?_
        intro x hx
        rcases List.mem_or_eq_of_mem_set hx with hx | rfl
        · exact hpop x hx
        · exact hind2

lemma doMutation_inv (cfg : Config) (rand : Nat → Nat) (pos : Nat)
    (pop pop2 : List Individual) (pos2 : Nat)
    (h : doMutation cfg rand pos pop = some (pop2, pos2))
    (hpop : ∀ ind ∈ pop, IndInv cfg ind) : ∀ ind ∈ pop2, IndInv cfg ind :=
  mutLoop_inv cfg rand (List.range cfg.populationSize) pop pos pop2 pos2 h hpop

lemma commonGenes_spec (cfg : Config) (a b : Individual) (g : Nat)
    (h : g ∈ commonGenes cfg a b) :
    g ∈ a.path ∧ g ∈ b.path ∧ g ≠ cfg.start ∧ g ≠ cfg.endIdx := by
  unfold commonGenes at h
  rw [List.mem_filter] at h
  obtain ⟨-, hp⟩ := h
  simp only [Bool.and_eq_true] at hp
  obtain ⟨⟨⟨h1, h2⟩, h3⟩, h4⟩ := hp
  refine ⟨List.mem_of_elem_eq_true h1, List.mem_of_elem_eq_true h2, ?_, ?_⟩
  · simpa using h3
  · simpa using h4

lemma listIndex_pos (g x : Nat) (l : List Nat) (h : l.head? = some x)
    (hne : g ≠ x) : 1 ≤ listIndex g l := by
  cases l with
  | nil => cases h
  | cons y ys =>
    simp only [List.head?_cons, Option.some.injEq] at h
    have hyg : ¬ (y = g) := by
      intro hyg
      apply hne
      rw [← hyg]
      exact h
    unfold listIndex
    rw [if_neg hyg]
    omega

lemma take_head (l : List Nat) (i : Nat) (h1 : 1 ≤ i) (hne : l ≠ []) :
    (l.take i).head? = l.head? := by
  cases l with
  | nil => exact absurd rfl hne
  | cons y ys =>
    cases i with
    | zero => omega
    | succ j => simp

lemma firstChildOf_inv (cfg : Config) (a b : Individual) (g : Nat)
    (ha : IndInv cfg a) (hb : IndInv cfg b) (hga : g ∈ a.path) (hgb : g ∈ b.path)
    (hgs : g ≠ cfg.start) (hge : g ≠ cfg.endIdx) :
    (firstChildOf a b g).head? = some cfg.start ∧
    (firstChildOf a b g).getLast? = some cfg.endIdx ∧
    2 ≤ (firstChildOf a b g).length := by
  obtain ⟨hah, hal, halen⟩ := ha
  obtain ⟨hbh, hbl, hblen⟩ := hb
  have hane : a.path ≠ [] := by
    intro hemp; rw [hemp] at hah; cases hah
  have hbne : b.path ≠ [] := by
    intro hemp; rw [hemp] at hbh; cases hbh
  have hiA : 1 ≤ listIndex g a.path := listIndex_pos g cfg.start a.path hah hgs
  have hiAlt : listIndex g a.path < a.path.length := listIndex_lt g a.path hga
  have hiBlt : listIndex g b.path < b.path.length := listIndex_lt g b.path hgb
  -- the crossing gene is not the last element of `b.path` (that one is `end`)
  have hiB : listIndex g b.path + 1 ≤ b.path.length - 1 := by
    by_contra hcon
    have hix : listIndex g b.path = b.path.length - 1 := by omega
    have hg2 : b.path.get? (b.path.length - 1) = some g := by
      rw [← hix]
      exact get_listIndex g b.path hgb
    rw [List.getLast?_eq_get? b.path, hg2] at hbl
    cases hbl
    exact hge rfl
  have hdropne : b.path.drop (listIndex g b.path + 1) ≠ [] :=
    drop_ne_nil_of_lt b.path _ (by omega)
  have htakene : a.path.take (listIndex g a.path + 1) ≠ [] := by
    intro hemp
    have := congrArg List.length hemp
    rw [List.length_take] at this
    simp only [List.length_nil] at this
    omega
  refine ⟨?_, ?_, ?_⟩
  · unfold firstChildOf
    rw [List.head?_append_of_ne_nil _ htakene,
      take_head a.path _ (by omega) hane]
    exact hah
  · unfold firstChildOf
    rw [List.getLast?_append_of_ne_nil _ hdropne,
      getLast?_drop_of_ne_nil b.path _ hdropne]
    exact hbl
  · unfold firstChildOf
    rw [List.length_append, List.length_take]
    omega

lemma acceptChild_mem (cfg : Config) (pop : List Individual) (i : Nat)
    (fit : ℚ) (child : List Nat) (ind : Individual)
    (h : ind ∈ acceptChild cfg pop i fit child) :
    ind ∈ pop ∨ (ind.path = child ∧ ind.cost = pathSum cfg.distances child) := by
  unfold acceptChild at h
  split at h
  · rcases List.mem_or_eq_of_mem_set h with h | rfl
    · exact Or.inl h
    · exact Or.inr ⟨rfl, rfl⟩
  · exact Or.inl h

lemma crossCouple_mem (cfg : Config) (rand : Nat → Nat) (pos : Nat)
    (pop : List Individual) (i1 i2 : Nat) (pop2 : List Individual) (pos2 : Nat)
    (h : crossCouple cfg rand pos pop i1 i2 = some (pop2, pos2)) :
    ∀ ind ∈ pop2, ind ∈ pop ∨ ∃ (a b : Individual) (g : Nat),
      pop.get? i1 = some a ∧ pop.get? i2 = some b ∧ g ∈ commonGenes cfg a b ∧
      (ind.path = firstChildOf a b g ∨ ind.path = firstChildOf b a g) ∧
      ind.cost = pathSum cfg.distances ind.path := by
  rw [crossCouple] at h
  split at h
  · rename_i a b ha hb
    split at h
    · cases h
      intro ind hmem
      exact Or.inl hmem
    · split at h
      · cases h
      · rename_i g hg
        cases h
        intro ind hmem
        have hgc : g ∈ commonGenes cfg a b := List.get?_mem hg
        rcases acceptChild_mem cfg _ i2 b.fitness (firstChildOf b a g) ind hmem
          with hmem1 | ⟨hp, hc⟩
        · rcases acceptChild_mem cfg pop i1 a.fitness (firstChildOf a b g) ind hmem1
            with hmem0 | ⟨hp, hc⟩
          · exact Or.inl hmem0
          · exact Or.inr ⟨a, b, g, ha, hb, hgc, Or.inl hp, by rw [hp]; exact hc⟩
        · exact Or.inr ⟨a, b, g, ha, hb, hgc, Or.inr hp, by rw [hp]; exact hc⟩
  · cases h

lemma crossCouple_inv (cfg : Config) (rand : Nat → Nat) (pos : Nat)
    (pop : List Individual) (i1 i2 : Nat) (pop2 : List Individual) (pos2 : Nat)
    (h : crossCouple cfg rand pos pop i1 i2 = some (pop2, pos2))
    (hpop : ∀ ind ∈ pop, IndInv cfg ind) : ∀ ind ∈ pop2, IndInv cfg ind := by
  intro ind hmem
  rcases crossCouple_mem cfg rand pos pop i1 i2 pop2 pos2 h ind hmem with
    hold | ⟨a, b, g, ha, hb, hgc, hpath, -⟩
  · exact hpop ind hold
  · have hainv : IndInv cfg a := hpop a (List.get?_mem ha)
    have hbinv : IndInv cfg b := hpop b (List.get?_mem hb)
    obtain ⟨hga, hgb, hgs, hge⟩ := commonGenes_spec cfg a b g hgc
    rcases hpath with hp | hp
    · obtain ⟨h1, h2, h3⟩ :=
        firstChildOf_inv cfg a b g hainv hbinv hga hgb hgs hge
      exact ⟨by rw [hp]; exact h1, by rw [hp]; exact h2, by rw [hp]; exact h3⟩
    · obtain ⟨h1, h2, h3⟩ :=
        firstChildOf_inv cfg b a g hbinv hainv hgb hga hgs hge
      exact ⟨by rw [hp]; exact h1, by rw [hp]; exact h2, by rw [hp]; exact h3⟩

lemma crossLoop_pres (cfg : Config) (rand : Nat → Nat)
    (P : Individual → Prop)
    (hP : ∀ (pos : Nat) (pop : List Individual) (i1 i2 : Nat)
      (pop2 : List Individual) (pos2 : Nat),
      crossCouple cfg rand pos pop i1 i2 = some (pop2, pos2) →
      (∀ ind ∈ pop, P ind) → ∀ ind ∈ pop2, P ind) :
    ∀ (couples : List (Nat × Nat)) (pop : List Individual) (pos : Nat)
      (pop2 : List Individual) (pos2 : Nat),
      crossLoop cfg rand couples (pop, pos) = some (pop2, pos2) →
      (∀ ind ∈ pop, P ind) → ∀ ind ∈ pop2, P ind := by
  intro couples
  induction couples with
  | nil =>
    intro pop pos pop2 pos2 h hpop
    rw [crossLoop] at h
    cases h
    exact hpop
  | cons c rest ih =>
    intro pop pos pop2 pos2 h hpop
    obtain ⟨i1, i2⟩ := c
    rw [crossLoop] at h
    cases hcc : crossCouple cfg rand pos pop i1 i2 with
    | none => rw [hcc] at h; cases h
    | some st =>
      rw [hcc] at h
      obtain ⟨popM, posM⟩ := st
      exact ih popM posM pop2 pos2 h (hP pos pop i1 i2 popM posM hcc hpop)

lemma doCrossover_inv (cfg : Config) (rand : Nat → Nat) (pos : Nat)
    (pop pop2 : List Individual) (pos2 : Nat)
    (h : doCrossover cfg rand pos pop = some (pop2, pos2))
    (hpop : ∀ ind ∈ pop, IndInv cfg ind) : ∀ ind ∈ pop2, IndInv cfg ind := by
  rw [doCrossover] at h
  split at h
  · cases h
  · rename_i couples hc
    exact crossLoop_pres cfg rand (IndInv cfg)
      (fun pos pop i1 i2 pop2 pos2 hcc hpop =>
        crossCouple_inv cfg rand pos pop i1 i2 pop2 pos2 hcc hpop)
      couples pop _ pop2 pos2 h hpop

lemma doCrossover_cons (cfg : Config) (rand : Nat → Nat) (pos : Nat)
    (pop pop2 : List Individual) (pos2 : Nat)
    (h : doCrossover cfg rand pos pop = some (pop2, pos2))
    (hpop : ∀ ind ∈ pop, ind.cost = pathSum cfg.distances ind.path) :
    ∀ ind ∈ pop2, ind.cost = pathSum cfg.distances ind.path := by
  rw [doCrossover] at h
  split at h
  · cases h
  · rename_i couples hc
    have hstep : ∀ (pos3 : Nat) (pop3 : List Individual) (i1 i2 : Nat)
        (pop4 : List Individual) (pos4 : Nat),
        crossCouple cfg rand pos3 pop3 i1 i2 = some (pop4, pos4) →
        (∀ ind ∈ pop3, ind.cost = pathSum cfg.distances ind.path) →
        ∀ ind ∈ pop4, ind.cost = pathSum cfg.distances ind.path := by
      intro pos3 pop3 i1 i2 pop4 pos4 hcc hpop3 ind hmem
      rcases crossCouple_mem cfg rand pos3 pop3 i1 i2 pop4 pos4 hcc ind hmem with
        hold | ⟨a, b, g, ha, hb, hgc, hpath, hcost⟩
      · exact hpop3 ind hold
      · exact hcost
    exact crossLoop_pres cfg rand _ hstep couples pop _ pop2 pos2 h hpop

lemma withFitness_mem (cfg : Config) (pop : List Individual) (ind : Individual)
    (h : ind ∈ withFitness cfg pop) :
    ∃ ind0 ∈ pop, ind.path = ind0.path ∧ ind.cost = ind0.cost := by
  unfold withFitness at h
  rw [List.mem_map] at h
  obtain ⟨ind0, hmem, rfl⟩ := h
  exact ⟨ind0, hmem, rfl, rfl⟩

lemma withFitness_pres_inv (cfg : Config) (pop : List Individual)
    (hpop : ∀ ind ∈ pop, IndInv cfg ind) :
    ∀ ind ∈ withFitness cfg pop, IndInv cfg ind := by
  intro ind hmem
  obtain ⟨ind0, hmem0, hpath, -⟩ := withFitness_mem cfg pop ind hmem
  obtain ⟨h1, h2, h3⟩ := hpop ind0 hmem0
  exact ⟨by rw [hpath]; exact h1, by rw [hpath]; exact h2, by rw [hpath]; exact h3⟩

lemma withFitness_pres_cons (cfg : Config) (pop : List Individual)
    (hpop : ∀ ind ∈ pop, ind.cost = pathSum cfg.distances ind.path) :
    ∀ ind ∈ withFitness cfg pop, ind.cost = pathSum cfg.distances ind.path := by
  intro ind hmem
  obtain ⟨ind0, hmem0, hpath, hcost⟩ := withFitness_mem cfg pop ind hmem
  rw [hpath, hcost]
  exact hpop ind0 hmem0

lemma selectSlot_mem (popF : List Individual) (samples : List Nat)
    (ind : Individual) (h : selectSlot popF samples = some ind) : ind ∈ popF := by
  rw [selectSlot] at h
  split at h
  · cases h
  · exact List.get?_mem h

lemma doSelection_facts (cfg : Config) (rand : Nat → Nat) (pos : Nat)
    (pop log : List Individual) (cg : Nat)
    (off log2 : List Individual) (pos2 : Nat)
    (h : doSelection cfg rand pos pop log cg = some (off, log2, pos2)) :
    (∀ ind ∈ off, ind ∈ withFitness cfg pop) ∧
    (∃ best, best ∈ withFitness cfg pop ∧ log2 = log.set cg best) ∧
    cg < log.length ∧ log2.length = log.length := by
  rw [doSelection] at h
  split at h
  · cases h
  · rename_i best hbest
    split at h
    · rename_i hcg
      split at h
      · cases h
      · rename_i off0 hloop
        cases h
        obtain ⟨hofflen, hslots⟩ := selectLoop_some _ rand pos _ _ _ _ hloop
        refine ⟨?_, ⟨best, List.get?_mem hbest, rfl⟩, hcg, by simp⟩
        intro ind hmem
        obtain ⟨k, hk⟩ := List.mem_iff_get?.mp hmem
        have hklt : k < cfg.populationSize := by
          obtain ⟨hlt, -⟩ := List.get?_eq_some.mp hk
          omega
        have := hslots k hklt
        rw [hk] at this
        exact selectSlot_mem _ _ ind this.symm
    · cases h

lemma mem_take_get? (l : List Individual) (k : Nat) (x : Individual)
    (h : x ∈ l.take k) : ∃ j, j < k ∧ l.get? j = some x := by
  obtain ⟨j, hj⟩ := List.mem_iff_get?.mp h
  have hjlt : j < (l.take k).length := by
    obtain ⟨hlt, -⟩ := List.get?_eq_some.mp hj
    exact hlt
  have hjk : j < k := by
    rw [List.length_take] at hjlt
    omega
  rw [List.get?_take hjk] at hj
  exact ⟨j, hjk, hj⟩

lemma get?_mem_take (l : List Individual) (j k : Nat) (x : Individual)
    (hjk : j < k) (h : l.get? j = some x) : x ∈ l.take k := by
  have := List.get?_take hjk (l := l)
  rw [h] at this
  exact List.get?_mem this

lemma take_set_mem (l : List Individual) (g : Nat) (best x : Individual)
    (hg : g < l.length) (hx : x ∈ (l.set g best).take (g + 1)) :
    x ∈ l.take g ∨ x = best := by
  obtain ⟨j, hjk, hj⟩ := mem_take_get? (l.set g best) (g + 1) x hx
  by_cases hjg : j = g
  · subst hjg
    rw [List.get?_set_eq_of_lt best hg] at hj
    cases hj
    exact Or.inr rfl
  · rw [List.get?_set_ne best l (by omega)] at hj
    exact Or.inl (get?_mem_take l j g x (by omega) hj)

lemma genStep_inv (cfg : Config) (rand : Nat → Nat) (st : RunState) (g : Nat)
    (st2 : RunState) (h : genStep cfg rand st g = some st2)
    (hpop : ∀ ind ∈ st.population, IndInv cfg ind)
    (hlog : ∀ ind ∈ st.fittest.take g, IndInv cfg ind) :
    (∀ ind ∈ st2.population, IndInv cfg ind) ∧
    (∀ ind ∈ st2.fittest.take (g + 1), IndInv cfg ind) ∧
    st2.currentGeneration = g ∧ st2.fittest.length = st.fittest.length := by
  rw [genStep] at h
  split at h
  · cases h
  · rename_i popC pos1 hcross
    split at h
    · cases h
    · rename_i popM pos2 hmut
      split at h
      · cases h
      · rename_i popS log2 pos3 hsel
        cases h
        have hC := doCrossover_inv cfg rand st.pos st.population popC pos1
          hcross hpop
        have hM := doMutation_inv cfg rand pos1 popC popM pos2 hmut hC
        obtain ⟨hoffmem, ⟨best, hbestmem, hlog2⟩, hcg, hlen2⟩ :=
          doSelection_facts cfg rand pos2 popM st.fittest g popS log2 pos3 hsel
        have hbestinv : IndInv cfg best :=
          withFitness_pres_inv cfg popM hM best hbestmem
        refine ⟨?_, ?_, rfl, ?_⟩
        · intro ind hmem
          exact withFitness_pres_inv cfg popM hM ind (hoffmem ind hmem)
        · intro ind hmem
          show IndInv cfg ind
          rw [hlog2] at hmem
          rcases take_set_mem st.fittest g best ind hcg hmem with hmem | rfl
          · exact hlog ind hmem
          · exact hbestinv
        · rw [hlog2]
          simp

lemma runLoop_inv (cfg : Config) (rand : Nat → Nat) (timeUp : Nat → Bool) :
    ∀ (m k : Nat) (st st2 : RunState),
      runLoop cfg rand timeUp (List.range' k m) st = some st2 →
      k ≤ st.currentGeneration + 1 →
      (∀ ind ∈ st.population, IndInv cfg ind) →
      (∀ ind ∈ st.fittest.take (st.currentGeneration + 1), IndInv cfg ind) →
      st.currentGeneration < st.fittest.length →
      (∀ ind ∈ st2.population, IndInv cfg ind) ∧
      (∀ ind ∈ st2.fittest.take (st2.currentGeneration + 1), IndInv cfg ind) ∧
      st2.currentGeneration < st2.fittest.length := by
  intro m
  induction m with
  | zero =>
    intro k st st2 h hk hpop hlog hcg
    rw [List.range'] at h
    rw [runLoop] at h
    cases h
    exact ⟨hpop, hlog, hcg⟩
  | succ n ih =>
    intro k st st2 h hk hpop hlog hcg
    have hr : List.range' k (n + 1) = k :: List.range' (k + 1) n :=
      List.range'_succ k n 1 ▸ rfl
    rw [hr, runLoop] at h
    split at h
    · cases h
      exact ⟨hpop, hlog, hcg⟩
    · have hlogk : ∀ ind ∈ st.fittest.take k, IndInv cfg ind := by
        intro ind hmem
        exact hlog ind (mem_take_mono hk hmem)
      split at h
      · split at h
        · cases h
        · cases h
          exact ⟨hpop, hlog, hcg⟩
        · rename_i hconv
          split at h
          · cases h
          · rename_i st3 hstep
            obtain ⟨h1, h2, h3, h4⟩ :=
              genStep_inv cfg rand st k st3 hstep hpop hlogk
            refine ih (k + 1) st3 st2 h (by omega) h1 (by rw [h3]; exact h2) ?_
            rw [h3, h4]
            obtain ⟨-, -, hcg2, -⟩ :=
              genStep_inv cfg rand st k st3 hstep hpop hlogk
            -- the selection write bound: slot k is within the log
            rw [genStep] at hstep
            split at hstep
            · cases hstep
            · rename_i popC pos1 hcross
              split at hstep
              · cases hstep
              · rename_i popM pos2 hmut
                split at hstep
                · cases hstep
                · rename_i popS log2 pos3 hsel
                  obtain ⟨-, -, hcg3, -⟩ := doSelection_facts cfg rand pos2 popM
                    st.fittest k popS log2 pos3 hsel
                  exact hcg3
      · split at h
        · cases h
        · rename_i st3 hstep
          obtain ⟨h1, h2, h3, h4⟩ :=
            genStep_inv cfg rand st k st3 hstep hpop hlogk
          refine ih (k + 1) st3 st2 h (by omega) h1 (by rw [h3]; exact h2) ?_
          rw [h3, h4]
          rw [genStep] at hstep
          split at hstep
          · cases hstep
          · rename_i popC pos1 hcross
            split at hstep
            · cases hstep
            · rename_i popM pos2 hmut
              split at hstep
              · cases hstep
              · rename_i popS log2 pos3 hsel
                obtain ⟨-, -, hcg3, -⟩ := doSelection_facts cfg rand pos2 popM
                  st.fittest k popS log2 pos3 hsel
                exact hcg3

lemma runGA_inv (cfg : Config) (rand : Nat → Nat) (timeUp : Nat → Bool)
    (fuel pos : Nat) (st : RunState)
    (h : runGA cfg rand timeUp fuel pos = some st) :
    (∀ ind ∈ st.population, IndInv cfg ind) ∧
    (∀ ind ∈ st.fittest.take (st.currentGeneration + 1), IndInv cfg ind) ∧
    st.currentGeneration < st.fittest.length := by
  rw [runGA] at h
  split at h
  · cases h
  · rename_i pop0 pos0 hinit
    split at h
    · cases h
    · rename_i pop1 log1 pos1 hsel
      have hpop0 := initPopulation_inv cfg rand fuel pos pop0 pos0 hinit
      have hfacts := doSelection_facts cfg rand pos0 pop0
        (List.replicate cfg.maxGenerations (⟨[], 0, 0⟩ : Individual)) 0
        pop1 log1 pos1 hsel
      obtain ⟨hoffmem, hex, hcg0, hlen1⟩ := hfacts
      obtain ⟨best, hbestmem, hlog1⟩ := hex
      have hpop1 : ∀ ind ∈ pop1, IndInv cfg ind := by
        intro ind hmem
        exact withFitness_pres_inv cfg pop0 hpop0 ind (hoffmem ind hmem)
      have hcglen : (0 : Nat) < log1.length := by
        rw [hlen1]
        simpa using hcg0
      have hlog1inv : ∀ ind ∈ log1.take 1, IndInv cfg ind := by
        intro ind hmem
        rw [hlog1] at hmem
        rcases take_set_mem _ 0 best ind (by simpa using hcg0) hmem with hmem | heq
        · simp at hmem
        · rw [heq]
          exact withFitness_pres_inv cfg pop0 hpop0 best hbestmem
      rw [List.range_eq_range'] at h
      exact runLoop_inv cfg rand timeUp cfg.maxGenerations 0
        ⟨pop1, log1, 0, pos1, [pop1]⟩ st h (by omega) hpop1 hlog1inv hcglen

lemma pySlice_subset_take (l : List Individual) (a b : Int) (x : Individual)
    (hx : x ∈ pySlice l a b) : x ∈ l.take (sliceIdx l.length b) :=
  List.mem_of_mem_drop hx

lemma sliceIdx_natCast (n m : Nat) : sliceIdx n (m : Int) = min m n := by
  unfold sliceIdx
  omega

/-- C1 (amended): `calc_tour` returns the empty path (with cost 0) if and
only if `D[start, end] > max_cost` — the early exit fires only on the strict
inequality, so at `D[start, end] == max_cost` the GA runs; the early exit
does not depend on the random stream, the clock or the fuel (no generations
are run there), and whenever `calc_tour` returns at all in a non-early-exit
case, the returned path is non-empty. -/
theorem calcTour_empty_iff_strict (cfg : Config) (lastNg : Option Nat)
    (rand : Nat → Nat) (timeUp : Nat → Bool) (fuel : Nat) :
    (cfg.maxCost < cfg.distances cfg.start cfg.endIdx →
      (calcTour cfg lastNg rand timeUp fuel = some ([], 0) ∧
       ∀ (rand2 : Nat → Nat) (timeUp2 : Nat → Bool) (fuel2 : Nat),
         calcTour cfg lastNg rand2 timeUp2 fuel2 = some ([], 0))) ∧
    (∀ (p : List Nat) (c : ℚ), calcTour cfg lastNg rand timeUp fuel = some (p, c) →
      (p = [] ↔ cfg.maxCost < cfg.distances cfg.start cfg.endIdx)) := by
  constructor
  · intro hlt
    constructor
    · unfold calcTour
      rw [if_pos hlt]
    · intro rand2 timeUp2 fuel2
      unfold calcTour
      rw [if_pos hlt]
  · intro p c hp
    by_cases hguard : cfg.maxCost < cfg.distances cfg.start cfg.endIdx
    · unfold calcTour at hp
      rw [if_pos hguard] at hp
      cases hp
      simp [hguard]
    · unfold calcTour at hp
      rw [if_neg hguard] at hp
      split at hp
      · cases hp
      · rename_i st hrun
        split at hp
        · cases hp
        · rename_i fittest hfit
          cases hp
          obtain ⟨-, hloginv, hcglt⟩ := runGA_inv cfg rand timeUp fuel 0 st hrun
          have hmem0 : fittest ∈ pySlice st.fittest
              ((st.currentGeneration : Int) -
                (pyOrDefault lastNg st.currentGeneration : Int))
              (st.currentGeneration : Int) := List.get?_mem hfit
          have hmem1 : fittest ∈ st.fittest.take
              (sliceIdx st.fittest.length (st.currentGeneration : Int)) :=
            pySlice_subset_take st.fittest _ _ fittest hmem0
          have hmem2 : fittest ∈ st.fittest.take (st.currentGeneration + 1) := by
            refine mem_take_mono ?_ hmem1
            rw [sliceIdx_natCast]
            omega
          obtain ⟨-, -, hlen2⟩ := hloginv fittest hmem2
          refine iff_of_false ?_ hguard
          intro hemp
          rw [hemp] at hlen2
          simp at hlen2

/-- Early-exit configuration used in the witness below:
`D[start, end] = 7 > 5 = max_cost`. -/
def cfgEarly : Config :=
  { start := 0, endIdx := 1, n := 2,
    distances := fun i j => if i = j then 0 else 7, maxCost := 5,
    profits := none, populationSize := 2, tournamentSize := 5,
    minGenerations := 5, maxGenerations := 2, terminationThreshold := 1/100 }

/-- Witness for the amended early-exit characterisation: the strict case
returns `([], 0)`, and at the concrete equality-case run the returned path
`[0, 1]` is non-empty, matching the failed guard. -/
theorem calcTour_empty_iff_strict_witness :
    calcTour cfgEarly none (fun _ => 0) (fun _ => false) 5 = some ([], 0) ∧
    (([0, 1] : List Nat) = [] ↔
      cfgC1.maxCost < cfgC1.distances cfgC1.start cfgC1.endIdx) :=
  ⟨((calcTour_empty_iff_strict cfgEarly none (fun _ => 0) (fun _ => false) 5).1
      (by norm_num [cfgEarly])).1,
   (calcTour_empty_iff_strict cfgC1 none (fun _ => 0) (fun _ => false) 20).2
      [0, 1] 5 (by with_unfolding_all decide)⟩

/-- C2 (amended): for every distance matrix `D` (symmetry not required),
Selection and Crossover preserve the exactness of the stored cost
(`cost == Σ D[path[k], path[k+1]]`) of every individual — Selection's
best-log write adds only a cost-exact entry — and every individual built by
the tour initialiser's forward half stores the exact sum.  (The loop
initialiser, the reversed tour half and a Mutation that deletes a point but
accepts no insertion store a different quantity; see the counterexample.) -/
theorem cost_exactness_preserved (cfg : Config) (rand : Nat → Nat)
    (pos : Nat) (pop log : List Individual) (cg fuel : Nat)
    (hcons : ∀ ind ∈ pop, ind.cost = pathSum cfg.distances ind.path) :
    (∀ (off log2 : List Individual) (pos2 : Nat),
      doSelection cfg rand pos pop log cg = some (off, log2, pos2) →
      (∀ ind ∈ off, ind.cost = pathSum cfg.distances ind.path) ∧
      (∀ ind ∈ log2, ind ∈ log ∨ ind.cost = pathSum cfg.distances ind.path)) ∧
    (∀ (pop2 : List Individual) (pos2 : Nat),
      doCrossover cfg rand pos pop = some (pop2, pos2) →
      ∀ ind ∈ pop2, ind.cost = pathSum cfg.distances ind.path) ∧
    (∀ (count : Nat) (b : List Individual) (pos2 : Nat),
      tourBlock cfg rand cfg.start cfg.endIdx false fuel count pos
        = some (b, pos2) →
      ∀ ind ∈ b, ind.cost = pathSum cfg.distances ind.path) := by
  refine ⟨?_, ?_, ?_⟩
  · intro off log2 pos2 h
    obtain ⟨hoffmem, hex, -, -⟩ :=
      doSelection_facts cfg rand pos pop log cg off log2 pos2 h
    obtain ⟨best, hbestmem, hlog2⟩ := hex
    constructor
    · intro ind hmem
      exact withFitness_pres_cons cfg pop hcons ind (hoffmem ind hmem)
    · intro ind hmem
      rw [hlog2] at hmem
      rcases List.mem_or_eq_of_mem_set hmem with hmem | heq
      · exact Or.inl hmem
      · refine Or.inr ?_
        rw [heq]
        exact withFitness_pres_cons cfg pop hcons best hbestmem
  · intro pop2 pos2 h
    exact doCrossover_cons cfg rand pos pop pop2 pos2 h hcons
  · intro count b pos2 h ind hmem
    exact (tourBlock_fwd_spec cfg rand fuel count pos b pos2 h ind hmem).1

/-- Witness for the cost-exactness theorem: a concrete Selection run on a
cost-exact population yields a cost-exact offspring individual. -/
theorem cost_exactness_preserved_witness :
    (⟨[0, 1], 5, 5⟩ : Individual).cost =
      pathSum cfgC1.distances (⟨[0, 1], 5, 5⟩ : Individual).path :=
  ((cost_exactness_preserved cfgC1 (fun _ => 0) 0
      [⟨[0, 1], 5, 0⟩, ⟨[0, 1], 5, 0⟩] [⟨[], 0, 0⟩, ⟨[], 0, 0⟩] 0 20
      (by with_unfolding_all decide)).1 [⟨[0, 1], 5, 5⟩, ⟨[0, 1], 5, 5⟩]
      [⟨[0, 1], 5, 5⟩, ⟨[], 0, 0⟩] 20 (by with_unfolding_all decide)).1
    ⟨[0, 1], 5, 5⟩ (by simp)

/-- C4 counterexample: at the odd population size `P = 3` (population built
by the initialiser itself), `_do_crossover` does not complete normally and
leave one individual untouched — forming the couples reads index 3 of the
3-element shuffled list and raises IndexError (modelled as `none`). -/
theorem crossover_odd_population_counterexample :
    cfgC9.populationSize = 3 ∧
    (initPopulationTour cfgC9 (fun _ => 0) 30 0).map (fun pc => pc.1) =
      some [⟨[0, 2, 1], 2, 0⟩, ⟨[0, 2, 1], 6, 0⟩, ⟨[0, 2, 1], 6, 0⟩] ∧
    doCrossover cfgC9 (fun _ => 0) 3
      [⟨[0, 2, 1], 2, 0⟩, ⟨[0, 2, 1], 6, 0⟩, ⟨[0, 2, 1], 6, 0⟩] = none := by
  with_unfolding_all decide

end STSP
